import Mathlib

/-!
# The `new` sub-command of `xxx` (`cmd/new.go`)

A shallow embedding of `cmd/new.go` and of the library calls it makes, and
the properties of the scaffolding pipeline proved about it.

* Go strings and byte slices are lists of code points (`GoString`); the texts
  handled are taken to be valid UTF-8, on which byte-wise search and
  replacement agree with code-point-wise ones.  `ReplaceAll` is stated for an
  arbitrary alphabet, so it also covers raw bytes.
* Paths follow `path/filepath` on a Unix system (separator `/`, no volume
  names).
* `fmt.Fscanf` is followed rune by rune for the format of this program
  (literal runes, a space, the verb `%s`); its limit of `1 << 30` runes per
  scan is left out.
* The file system is a finite list of entries (directories, regular files and
  symbolic links) keyed by their cleaned paths, listed in the order in which
  `filepath.Walk` visits them.  A path is looked up element by element,
  through links (at most 40 of them in a row); `..` is taken lexically, and two
  names for one file (hard links) are left out.  Every entry carries flags
  telling whether reading, writing and removing it succeed.
* External commands (`git`, `go`) and the interactive prompt are parameters
  of the model (`World`): nothing is assumed about what they do.
* `State` threads the file system, standard output, the list of external
  commands started and a ghost log of the pipeline stages entered.
-/

set_option autoImplicit false

namespace Cmd

/-! ## Strings and errors -/

/-- A Go `string` / `[]byte`. -/
abbrev GoString := List Char

/-- A Go `error`, identified with its message. -/
structure Error where
  msg : GoString
deriving DecidableEq, Repr

/-! ## `path/filepath` (Unix) -/

/-- The Unix path separator, `filepath.Separator`. -/
def Separator : Char := '/'

/-- Go `os.IsPathSeparator` on Unix. -/
def IsPathSeparator (c : Char) : Bool := c == Separator

/-- First loop of `filepath.Base`: strip trailing slashes. -/
def stripTrailingSlashes (path : GoString) : GoString :=
  (path.reverse.dropWhile IsPathSeparator).reverse

/-- Second loop of `filepath.Base`: keep what follows the last separator
(everything when there is none). -/
def lastElement (path : GoString) : GoString :=
  (path.reverse.takeWhile (fun c => !IsPathSeparator c)).reverse

/-- Go `filepath.Base`: the last element of `path`; `"."` for the empty path,
`"/"` for a path made of slashes only. -/
def Base (path : GoString) : GoString :=
  if path = [] then ['.']
  else
    let path := lastElement (stripTrailingSlashes path)
    if path = [] then [Separator] else path

/-- The loop of `filepath.Ext`, run over the reversed path: `acc` is the text
already passed, in original order. -/
def extLoop : GoString → GoString → GoString
  | [], _ => []
  | c :: cs, acc =>
    if IsPathSeparator c then []
    else if c = '.' then c :: acc
    else extLoop cs (c :: acc)

/-- Go `filepath.Ext`: the suffix beginning at the final dot of the final
element of `path`, empty if there is no dot. -/
def Ext (path : GoString) : GoString := extLoop path.reverse []

/-- The elements of a path: the stretches between its separators. -/
def splitElems : GoString → List GoString
  | [] => [[]]
  | c :: cs =>
    if IsPathSeparator c then [] :: splitElems cs
    else
      match splitElems cs with
      | [] => [[c]]
      | e :: es => (c :: e) :: es

/-- The element loop of `filepath.Clean`; `out` is the stack of elements kept
so far, last one first. -/
def cleanElems (rooted : Bool) : List GoString → List GoString → List GoString
  | [], out => out.reverse
  | e :: es, out =>
    if e = [] ∨ e = ['.'] then cleanElems rooted es out
    else if e = ['.', '.'] then
      match out with
      | [] => if rooted then cleanElems rooted es [] else cleanElems rooted es [e]
      | top :: out1 =>
        if top = ['.', '.'] then cleanElems rooted es (e :: top :: out1)
        else cleanElems rooted es out1
    else cleanElems rooted es (e :: out)

/-- Go `filepath.Clean`: the shortest path naming the same file by purely
lexical processing. -/
def Clean (path : GoString) : GoString :=
  if path = [] then ['.']
  else
    let rooted := path.head? = some Separator
    let out := cleanElems rooted (splitElems path) []
    let s := (if rooted then [Separator] else []) ++ [Separator].intercalate out
    if s = [] then ['.'] else s

/-- Go `filepath.Join`: empty elements before the first non-empty one are
ignored, the rest is joined with the separator and cleaned. -/
def Join (elem : List GoString) : GoString :=
  match elem.dropWhile (fun e => e = []) with
  | [] => []
  | es => Clean ([Separator].intercalate es)

/-! ## `bytes.ReplaceAll` -/

section Replace

variable {α : Type} [DecidableEq α]

/-- The scan of `bytes.Replace` for a non-empty `old`: `skip` counts the
elements of the occurrence just replaced that are still to be passed over. -/
def replaceLoop (old new : List α) : Nat → List α → List α
  | _, [] => []
  | skip + 1, _ :: cs => replaceLoop old new skip cs
  | 0, c :: cs =>
    if old.isPrefixOf (c :: cs) then new ++ replaceLoop old new (old.length - 1) cs
    else c :: replaceLoop old new 0 cs

/-- Go `bytes.ReplaceAll(s, old, new)`: a copy of `s` with all non-overlapping
instances of `old`, found from left to right, replaced by `new`.  An empty
`old` matches at the beginning and after each element. -/
def ReplaceAll (s old new : List α) : List α :=
  if old = [] then new ++ s.flatMap (fun c => c :: new)
  else replaceLoop old new 0 s

/-- The stretches of the text that the scan of `bytes.Replace` keeps: what
lies before, between and after the occurrences of `old` it replaces. -/
def keptLoop (old : List α) : Nat → List α → List (List α)
  | _, [] => [[]]
  | skip + 1, _ :: cs => keptLoop old skip cs
  | 0, c :: cs =>
    if old.isPrefixOf (c :: cs) then [] :: keptLoop old (old.length - 1) cs
    else
      match keptLoop old 0 cs with
      | [] => [[c]]
      | p :: ps => (c :: p) :: ps

/-- The stretches of `s` kept when every occurrence of `old` is replaced. -/
def kept (s old : List α) : List (List α) := keptLoop old 0 s

end Replace

/-! ## `fmt.Fscanf` -/

/-- The table `space` of package `fmt`. -/
def space : List (Nat × Nat) :=
  [(0x0009, 0x000d), (0x0020, 0x0020), (0x0085, 0x0085), (0x00a0, 0x00a0),
   (0x1680, 0x1680), (0x2000, 0x200a), (0x2028, 0x2029), (0x202f, 0x202f),
   (0x205f, 0x205f), (0x3000, 0x3000)]

/-- The range loop of `fmt.isSpace`. -/
def inRanges : List (Nat × Nat) → Nat → Bool
  | [], _ => false
  | rng :: rest, rx =>
    if rx < rng.1 then false
    else if rx ≤ rng.2 then true
    else inRanges rest rx

/-- Go `fmt.isSpace`. -/
def isSpace (r : Char) : Bool :=
  if r.toNat ≥ 65536 then false else inRanges space r.toNat

/-- The loop `for isSpace(inputc) && inputc != '\n'` of `advance`: pass over
spaces that are not newlines. -/
def skipBlanks : List Char → List Char
  | [] => []
  | c :: cs => if isSpace c && c != '\n' then skipBlanks cs else c :: cs

/-- The literal case of `(*ss).advance`: the next rune of the input must be
the rune of the format. -/
def advanceLiteral (fmtc : Char) : List Char → Except Error (List Char)
  | [] => .error ⟨"unexpected EOF".toList⟩
  | inputc :: input =>
    if fmtc = inputc then .ok input
    else .error ⟨"input does not match format".toList⟩

/-- The space case of `(*ss).advance` for a space of the format that does not
follow a newline: it matches one or more spaces of the input, none of them a
newline, or the end of the input. -/
def advanceSpace : List Char → Except Error (List Char)
  | [] => .ok []
  | inputc :: input =>
    if !isSpace inputc then .error ⟨"expected space in input to match format".toList⟩
    else if inputc = '\n' then .error ⟨"newline in input does not match format".toList⟩
    else .ok (skipBlanks input)

/-- Go `(*ss).SkipSpace` as run by `Fscanf`, for which a newline is not a
space. -/
def SkipSpace : List Char → Except Error (List Char)
  | [] => .ok []
  | r :: input =>
    if r = '\r' ∧ input.head? = some '\n' then SkipSpace input
    else if r = '\n' then .error ⟨"unexpected newline".toList⟩
    else if !isSpace r then .ok (r :: input)
    else SkipSpace input

/-- Go `(*ss).convertString` for the verb `%s`: skip spaces, fail at the end
of the input, then take the next word (`token(true, notSpace)`).  Returns
the word and the rest of the input. -/
def convertString (input : List Char) : Except Error (GoString × List Char) :=
  match SkipSpace input with
  | .error err => .error err
  | .ok [] => .error ⟨"unexpected EOF".toList⟩
  | .ok input =>
    match SkipSpace input with
    | .error err => .error err
    | .ok input => .ok (input.span (fun r => !isSpace r))

/-- Go `(*ss).doScanf` for formats made of literal runes, single spaces and
`%s` verbs: the words scanned, in order. -/
def doScanf : List Char → List Char → Except Error (List GoString)
  | [], _ => .ok []
  | '%' :: 's' :: format, input =>
    match SkipSpace input with
    | .error err => .error err
    | .ok input =>
      match convertString input with
      | .error err => .error err
      | .ok (str, input) =>
        match doScanf format input with
        | .error err => .error err
        | .ok strs => .ok (str :: strs)
  | fmtc :: format, input =>
    match (if isSpace fmtc then advanceSpace input else advanceLiteral fmtc input) with
    | .error err => .error err
    | .ok input => doScanf format input

/-- Go `fmt.Fscanf(r, format, &str)` with one string operand. -/
def Fscanf (r : List Char) (format : List Char) : Except Error GoString :=
  match doScanf format r with
  | .error err => .error err
  | .ok [] => .error ⟨"too many operands".toList⟩
  | .ok [str] => .ok str
  | .ok (_ :: _ :: _) => .error ⟨"too few operands for format".toList⟩

/-! ## The file system -/

/-- A directory, a regular file or a symbolic link, as `os.Lstat` shows it.
For a link, `link` is the key of the entry it points to (`isDir` is false:
`Lstat` does not follow it).  `readable`, `writable` and `removable` tell whether reading
the entry (listing it, for a directory), writing it and removing it
succeed. -/
structure Entry where
  path : GoString
  isDir : Bool
  link : Option GoString
  data : GoString
  readable : Bool
  writable : Bool
  removable : Bool
deriving DecidableEq, Repr

/-- A directory with all permissions. -/
def mkDir (path : GoString) : Entry := ⟨path, true, none, [], true, true, true⟩

/-- A regular file with all permissions. -/
def mkFile (path data : GoString) : Entry := ⟨path, false, none, data, true, true, true⟩

/-- The file system: its entries, keyed by their cleaned paths (relative to
the working directory, or absolute), in the order `filepath.Walk` visits
them. -/
abbrev FS := List Entry

/-- Whether a path is absolute. -/
def isRooted (path : GoString) : Bool := path.head? == some Separator

/-- The elements of a path that count: the empty ones and `.` are dropped. -/
def pathElems (path : GoString) : List GoString :=
  (splitElems path).filter (fun c => c ≠ [] ∧ c ≠ ['.'])

/-- Whether `path` is `root` itself or lies below it: both are absolute or both
relative, the elements of `root` begin those of `path`, and the next element is
not `..`.  Below the working directory `.` lie the relative paths that do not
climb out of it: `filepath.Join(".", name)` is `name`. -/
def isUnder (root path : GoString) : Bool :=
  isRooted root == isRooted path && (pathElems root).isPrefixOf (pathElems path) &&
    ((pathElems path).drop (pathElems root).length).head? != some ['.', '.']

/-- The directories that are always there: the working directory, the root
and the ancestors of the working directory (`..`, `../..`, ...). -/
def alwaysThere (key : GoString) : Bool :=
  key == ['.'] || key == [Separator] || (splitElems key).all (fun e => e == ['.', '.'])

/-- The entry keyed `key`. -/
def lookup (fs : FS) (key : GoString) : Option Entry :=
  match fs.find? (fun e => e.path == key) with
  | some e => some e
  | none => if alwaysThere key then some (mkDir key) else none

/-- Follow symbolic links from `key`, at most `n` of them. -/
def chase (fs : FS) : Nat → GoString → Except Error Entry
  | 0, _ => .error ⟨"too many levels of symbolic links".toList⟩
  | n + 1, key =>
    match lookup fs key with
    | none => .error ⟨"no such file or directory".toList⟩
    | some e =>
      match e.link with
      | none => .ok e
      | some target => chase fs n target

/-- The key of `name` in the directory keyed `dir`. -/
def joinKey (dir name : GoString) : GoString :=
  if dir = ['.'] then name
  else if dir.getLast? = some Separator then dir ++ name
  else dir ++ Separator :: name

/-- Path lookup, element by element, from the directory keyed `cur`: every
element but the last must lead, through links, to a directory; the last one
is followed through links when `follow` is set. -/
def walkPath (fs : FS) (follow : Bool) : GoString → List GoString → Except Error Entry
  | cur, [] => chase fs 40 cur
  | cur, c :: rest =>
    match rest with
    | [] =>
      if follow then chase fs 40 (joinKey cur c)
      else
        match lookup fs (joinKey cur c) with
        | none => .error ⟨"no such file or directory".toList⟩
        | some e => .ok e
    | _ :: _ =>
      match chase fs 40 (joinKey cur c) with
      | .error err => .error err
      | .ok d =>
        if d.isDir then walkPath fs follow d.path rest
        else .error ⟨"not a directory".toList⟩

/-- The entry a path names: the path is cleaned, then looked up element by
element (the empty path names nothing). -/
def resolve (fs : FS) (follow : Bool) (name : GoString) : Except Error Entry :=
  if name = [] then .error ⟨"no such file or directory".toList⟩
  else
    walkPath fs follow (if isRooted (Clean name) then [Separator] else ['.'])
      (pathElems (Clean name))

/-- Go `os.Stat`: the entry `name` leads to, links followed; `nil` on error. -/
def Stat (fs : FS) (name : GoString) : Option Entry :=
  (resolve fs true name).toOption

/-- Go `os.Open`. -/
def Open (fs : FS) (name : GoString) : Except Error Entry :=
  match Stat fs name with
  | none => .error ⟨"no such file or directory".toList⟩
  | some f => if f.readable then .ok f else .error ⟨"permission denied".toList⟩

/-- What reading an open file yields. -/
def Entry.read (f : Entry) : Except Error GoString :=
  if f.isDir then .error ⟨"is a directory".toList⟩ else .ok f.data

/-- Go `os.ReadFile`: the content of the file `name` leads to, links
followed. -/
def ReadFile (fs : FS) (name : GoString) : Except Error GoString :=
  match resolve fs true name with
  | .error err => .error err
  | .ok f => if !f.readable then .error ⟨"permission denied".toList⟩ else f.read

/-- Give the entry keyed `key` the content `data`. -/
def setData (key data : GoString) (e : Entry) : Entry :=
  if e.path == key then { e with data := data } else e

/-- Go `os.WriteFile` on a file that exists: the file `name` leads to, links
followed, gets the content `data` and keeps its permissions. -/
def WriteFile (fs : FS) (name : GoString) (data : GoString) : Except Error FS :=
  match resolve fs true name with
  | .error err => .error err
  | .ok f =>
    if f.isDir then .error ⟨"is a directory".toList⟩
    else if !f.writable then .error ⟨"permission denied".toList⟩
    else .ok (fs.map (setData f.path data))

/-- Go `endsWithDot` of package `os`. -/
def endsWithDot (path : GoString) : Bool :=
  match path.reverse with
  | [c] => c == '.'
  | c :: d :: _ => c == '.' && IsPathSeparator d
  | [] => false

/-- An entry cannot be removed when it or something below it is not
removable. -/
def blocked (fs : FS) (e : Entry) : Bool :=
  fs.any (fun d => isUnder e.path d.path && !d.removable)

/-- Go `os.RemoveAll`: removes `path` and everything below it that can be
removed; reports an error when something is left.  A missing `path` is not an
error. -/
def RemoveAll (fs : FS) (path : GoString) : FS × Option Error :=
  if path = [] then (fs, none)
  else if endsWithDot path then (fs, some ⟨"invalid argument".toList⟩)
  else
    let rest := fs.filter (fun e => !isUnder path e.path || blocked fs e)
    (rest, if rest.any (fun e => isUnder path e.path) then
        some ⟨"permission denied".toList⟩ else none)

/-- The traversal of `filepath.Walk` over the entries `es` to visit: `fn` is
called on each of them with its path, what `Lstat` shows of it, and the error
of listing it when it is a directory that cannot be read; the first error
`fn` returns stops the walk.  When `fn` lets a listing error pass, the
directory is added to `skipped` and nothing below it is visited. -/
def walk (fn : GoString → Entry → Option Error → FS → Except Error FS) :
    List GoString → List Entry → FS → FS × Option Error
  | _, [], fs => (fs, none)
  | skipped, e :: es, fs =>
    if skipped.any (fun d => isUnder d e.path) then walk fn skipped es fs
    else
      match fn e.path e
          (if e.isDir && !e.readable then some ⟨"permission denied".toList⟩ else none) fs with
      | .error x => (fs, some x)
      | .ok fs1 =>
        walk fn (if e.isDir && !e.readable then e.path :: skipped else skipped) es fs1

/-- Go `filepath.Walk`: `root` is looked up without following a link; it is
visited first, then everything below it (nothing lies below a file or a
link).  When `root` cannot be looked up, `fn` is called once with that error
and no file information. -/
def Walk (fs : FS) (root : GoString)
    (fn : GoString → Entry → Option Error → FS → Except Error FS) : FS × Option Error :=
  match resolve fs false root with
  | .error err =>
    match fn root ⟨[], false, none, [], false, false, false⟩ (some err) fs with
    | .error x => (fs, some x)
    | .ok fs1 => (fs1, none)
  | .ok info =>
    walk fn [] (info :: fs.filter (fun e => isUnder info.path e.path && e.path != info.path))
      fs

/-! ## The outside world and the program state -/

/-- An external command, `exec.Command(name, args...)` with its `Dir`. -/
structure Command where
  name : GoString
  args : List GoString
  dir : GoString
deriving DecidableEq, Repr

/-- What the program cannot decide: the effect and result of running an
external command, and the answer of `survey.AskOne` to a confirmation
prompt. -/
structure World where
  exec : Command → FS → FS × Option Error
  AskOne : GoString → Except Error Bool

/-- The stages of the pipeline. -/
inductive Stage
  | cloneRepo
  | replacePackageName
  | modTidy
  | rmGit
deriving DecidableEq, Repr

/-- The state threaded through the program: file system, lines written to
standard output, external commands started, and (ghost) stages entered. -/
structure State where
  fs : FS
  stdout : List GoString
  cmds : List Command
  calls : List Stage

/-- Record that a stage is entered. -/
def enter (st : Stage) (s : State) : State :=
  { s with calls := s.calls ++ [st] }

/-- Go `fmt.Printf`, the text being already formatted. -/
def Printf (text : GoString) (s : State) : State :=
  { s with stdout := s.stdout ++ [text] }

/-- Go `fmt.Println`: the operands separated by spaces, then a newline. -/
def Println (a : List GoString) (s : State) : State :=
  Printf ([' '].intercalate a ++ ['\n']) s

/-- Go `(*exec.Cmd).CombinedOutput` and `(*exec.Cmd).Run`: start the command,
wait for it and return its error; the output is not used by the program. -/
def CombinedOutput (w : World) (cmd : Command) (s : State) : Option Error × State :=
  ((w.exec cmd s.fs).2, { s with fs := (w.exec cmd s.fs).1, cmds := s.cmds ++ [cmd] })

/-! ## `cmd/new.go` -/

/-- The constant `repoURL`. -/
def repoURL : GoString := "https://github.com/Q1mi/gin-layout-base.git".toList

/-- The type `Project`. -/
structure Project where
  ProjectName : GoString
  FolderName : GoString
deriving DecidableEq, Repr

/-- `NewProject`. -/
def NewProject (projectName : GoString) : Project :=
  { ProjectName := projectName, FolderName := Base projectName }

/-- Lines 94 to 101 of `cloneRepo`: run `git clone`. -/
def cloneRepoGit (w : World) (p : Project) (s : State) : (Bool × Option Error) × State :=
  let s := Printf ("git clone ".toList ++ repoURL ++ ['\n']) s
  let cmd : Command := ⟨"git".toList, ["clone".toList, repoURL, p.ProjectName], []⟩
  match CombinedOutput w cmd s with
  | (some err, s) =>
    ((false, some err),
      Printf ("git clone ".toList ++ repoURL ++ " error: ".toList ++ err.msg ++ ['\n']) s)
  | (none, s) => ((true, none), s)

/-- The message of the confirmation prompt of `cloneRepo`. -/
def confirmMessage (p : Project) : GoString :=
  "Folder ".toList ++ p.ProjectName ++ " already exists, do you want to overwrite it?".toList

/-- `(*Project).cloneRepo`. -/
def cloneRepo (w : World) (p : Project) (s : State) : (Bool × Option Error) × State :=
  let s := enter .cloneRepo s
  match Stat s.fs p.ProjectName with
  | some _ =>
    match w.AskOne (confirmMessage p) with
    | .error err => ((false, some err), s)
    | .ok overwrite =>
      if !overwrite then ((false, none), s)
      else
        match RemoveAll s.fs p.ProjectName with
        | (fs, some err) =>
          ((false, some err),
            Println ["remove old project error: ".toList, err.msg] { s with fs := fs })
        | (fs, none) => cloneRepoGit w p { s with fs := fs }
  | none => cloneRepoGit w p s

/-- The function literal passed to `filepath.Walk` in `replaceFiles`. -/
def replaceFilesFn (p : Project) (old : GoString) (path : GoString) (info : Entry)
    (err : Option Error) (fs : FS) : Except Error FS :=
  match err with
  | some err => .error err
  | none =>
    if info.isDir then .ok fs
    else if Ext path ≠ ".go".toList then .ok fs
    else
      match ReadFile fs path with
      | .error err => .error err
      | .ok data =>
        let newData := ReplaceAll data old p.ProjectName
        match WriteFile fs path newData with
        | .error err => .error err
        | .ok fs => .ok fs

/-- `(*Project).replaceFiles`. -/
def replaceFiles (p : Project) (old : GoString) (s : State) : Option Error × State :=
  match Walk s.fs p.FolderName (replaceFilesFn p old) with
  | (fs, some err) =>
    (some err, Println ["walk file do replace error: ".toList, err.msg] { s with fs := fs })
  | (fs, none) => (none, { s with fs := fs })

/-- `(*Project).getModuleName`. -/
def getModuleName (p : Project) (s : State) : GoString × State :=
  match Open s.fs (Join [p.FolderName, "go.mod".toList]) with
  | .error err => ([], Println ["go.mod does not exist".toList, err.msg] s)
  | .ok modFile =>
    match modFile.read.bind (fun r => Fscanf r "module %s".toList) with
    | .error err => ([], Println ["read go mod error: ".toList, err.msg] s)
    | .ok moduleName => (moduleName, s)

/-- `(*Project).replacePackageName`. -/
def replacePackageName (w : World) (p : Project) (s : State) : Option Error × State :=
  let s := enter .replacePackageName s
  match getModuleName p s with
  | (moduleName, s) =>
    if moduleName.length = 0 then (some ⟨"get module name error".toList⟩, s)
    else
      match replaceFiles p moduleName s with
      | (some err, s) => (some err, s)
      | (none, s) =>
        let cmd : Command :=
          ⟨"go".toList, ["mod".toList, "edit".toList, "-module".toList, p.ProjectName],
            p.FolderName⟩
        match CombinedOutput w cmd s with
        | (some err, s) => (some err, Println ["go mod edit error: ".toList, err.msg] s)
        | (none, s) => (none, s)

/-- `(*Project).modTidy`. -/
def modTidy (w : World) (p : Project) (s : State) : Option Error × State :=
  let s := enter .modTidy s
  let s := Println ["go mod tidy".toList] s
  let cmd : Command := ⟨"go".toList, ["mod".toList, "tidy".toList], p.FolderName⟩
  match CombinedOutput w cmd s with
  | (some err, s) => (some err, Println ["go mod tidy error: ".toList, err.msg] s)
  | (none, s) => (none, s)

/-- `(*Project).rmGit`: the error of `os.RemoveAll` is dropped. -/
def rmGit (p : Project) (s : State) : State :=
  let s := enter .rmGit s
  { s with fs := (RemoveAll s.fs (Join [p.FolderName, ".git".toList])).1 }

/-- The first line printed at the end of a successful `run`. -/
def successLine (p : Project) : GoString :=
  "🎉 🎉 🎉 Project \x1b[36m".toList ++ p.ProjectName ++
    "\x1b[0m created successfully!\n\n".toList

/-- How a call of `run` ends: it returns, or it panics. -/
inductive Outcome
  | returned (s : State)
  | panicked (msg : GoString) (s : State)

/-- The state in which a call ended. -/
def Outcome.state : Outcome → State
  | .returned s => s
  | .panicked _ s => s

/-- `run`, the function bound to the `new` command.  The index expression
`args[0]` of its first statement panics when `args` is empty. -/
def run (w : World) (args : List GoString) (s : State) : Outcome :=
  match args[0]? with
  | none => .panicked "runtime error: index out of range [0] with length 0".toList s
  | some arg0 =>
    let p := NewProject arg0
    if args.length = 0 then .returned (Println ["need project name".toList] s)
    else
      -- clone repo
      match cloneRepo w p s with
      | ((yes, err), s) =>
        if err.isSome || !yes then .returned s
        else
          -- replace package name
          match replacePackageName w p s with
          | (err, s) =>
            if err.isSome || !yes then .returned s
            else
              -- go mod tidy
              match modTidy w p s with
              | (err, s) =>
                if err.isSome || !yes then .returned s
                else
                  let s := rmGit p s
                  let s := Printf (successLine p) s
                  let s := Printf "Now run:\n\n".toList s
                  let s := Printf ("› \x1b[36mcd ".toList ++ p.FolderName ++
                    " \x1b[0m\n".toList) s
                  let s := Printf "› \x1b[36mgo run cmd/server/main.go\x1b[0m\n\n".toList s
                  .returned s

/-- The state in which the program starts on the file system `fs`. -/
def State.init (fs : FS) : State := ⟨fs, [], [], []⟩

/-! ## Auxiliary notions used in the statements -/

/-- From `s` to `t` the stages `st` were entered, in this order, and every
line printed is a diagnostic, not the first line of the success message. -/
def Logs (st : List Stage) (s t : State) : Prop :=
  t.calls = s.calls ++ st ∧ ∀ l ∈ t.stdout, l ∈ s.stdout ∨ l.head? ≠ some '🎉'

/-- The messages printed once all stages have succeeded. -/
def printSuccess (p : Project) (s : State) : State :=
  Printf "› \x1b[36mgo run cmd/server/main.go\x1b[0m\n\n".toList
    (Printf ("› \x1b[36mcd ".toList ++ p.FolderName ++ " \x1b[0m\n".toList)
      (Printf "Now run:\n\n".toList (Printf (successLine p) s)))

/-- A blank: a space that is not a newline. -/
def isBlank (c : Char) : Bool := isSpace c && c != '\n'

/-- The text begins with the shape `module <name>`: the keyword, one or more
blanks, then the non-empty word `name`, which ends at a space or at the end of
the text. -/
def BeginsWithModule (text name : GoString) : Prop :=
  ∃ ws rest, text = "module".toList ++ ws ++ name ++ rest ∧ ws ≠ [] ∧
    (∀ c ∈ ws, isBlank c = true) ∧ name ≠ [] ∧ (∀ c ∈ name, isSpace c = false) ∧
    (∀ c, rest.head? = some c → isSpace c = true)

/-- The lines of a text. -/
def lines (text : GoString) : List GoString := text.splitOn '\n'

/-- The words of a line: its maximal stretches without a space. -/
def fields (line : GoString) : List GoString :=
  (line.splitOnP isSpace).filter (fun f => f ≠ [])

/-- The identifier a manifest declares, read the way the specification
words it: its first line that is not blank has the shape
`module <identifier>`. -/
def declaredModule (text : GoString) : Option GoString :=
  match (lines text).find? (fun l => l.any (fun c => !isSpace c)) with
  | none => none
  | some line =>
    match fields line with
    | [keyword, identifier] => if keyword = "module".toList then some identifier else none
    | _ => none

/-- A world in which `git clone` leaves a checkout whose `.git` directory
cannot be removed, the `go` commands succeed without changing anything, and
the answer to every prompt is no. -/
def lockedGitWorld : World where
  exec := fun cmd fs =>
    if cmd.name = "git".toList then
      ([mkDir "bar".toList,
        { mkDir "bar/.git".toList with removable := false },
        mkFile "bar/go.mod".toList "module github.com/Q1mi/gin-layout-base\n".toList], none)
    else (fs, none)
  AskOne := fun _ => .ok false

/-- A checkout whose manifest is the single word `module`. -/
def badManifest : FS :=
  [mkDir "bar".toList, mkFile "bar/go.mod".toList "module".toList]

/-- A checkout with the manifest of the template repository. -/
def templateCheckout : FS :=
  [mkDir "bar".toList,
   mkFile "bar/go.mod".toList "module github.com/Q1mi/gin-layout-base\n\ngo 1.20\n".toList]

/-- A checkout whose manifest begins with a blank line. -/
def blankLineCheckout : FS :=
  [mkDir "bar".toList,
   mkFile "bar/go.mod".toList "\nmodule github.com/Q1mi/gin-layout-base\n".toList]

/-- A project of an earlier run, in the folder `bar`. -/
def earlierProject : FS :=
  [mkDir "bar".toList,
   mkDir "bar/.git".toList,
   mkFile "bar/go.mod".toList "module base\n".toList,
   mkFile "bar/main.go".toList "import base/pkg".toList]

/-- What `git clone` of the template into `example.com/foo/bar` creates. -/
def freshCheckout : FS :=
  [mkDir "example.com".toList,
   mkDir "example.com/foo".toList,
   mkDir "example.com/foo/bar".toList,
   mkDir "example.com/foo/bar/.git".toList,
   mkFile "example.com/foo/bar/go.mod".toList
     "module github.com/Q1mi/gin-layout-base\n".toList,
   mkFile "example.com/foo/bar/main.go".toList
     "import github.com/Q1mi/gin-layout-base/pkg".toList]

/-- A world in which `git clone` adds the checkout `freshCheckout`, the `go`
commands succeed without changing anything, and the answer to every prompt is
no. -/
def cloneWorld : World where
  exec := fun cmd fs =>
    if cmd.name = "git".toList then (fs ++ freshCheckout, none) else (fs, none)
  AskOne := fun _ => .ok false

/-- The working directory holding the files of a project: `main.go` and
`sub/x.go`. -/
def flatTree : FS :=
  [mkFile "main.go".toList "import base/pkg".toList,
   mkDir "sub".toList,
   mkFile "sub/x.go".toList "base".toList]

/-! ## Theorems -/

/-! ### Paths -/

theorem intercalate_concat (sep : GoString) (init : List GoString) (l : GoString) :
    sep.intercalate (init ++ [l]) =
      if init = [] then l else sep.intercalate init ++ sep ++ l := by
  induction init with
  | nil => simp [List.intercalate]
  | cons a rest ih =>
    cases rest with
    | nil => simp [List.intercalate]
    | cons b rest2 =>
      simp only [List.intercalate, List.cons_append, List.intersperse, List.flatten_cons,
        reduceCtorEq, if_false, List.append_eq] at ih ⊢
      rw [ih]
      simp

/-- The base of a path that ends in a non-empty element without separator is
that element. -/
theorem Base_append (pre l : GoString) (hl : l ≠ []) (hs : Separator ∉ l)
    (hpre : pre = [] ∨ ∃ pre1, pre = pre1 ++ [Separator]) : Base (pre ++ l) = l := by
  have hnot : ∀ c ∈ l.reverse, (fun c => !IsPathSeparator c) c = true := by
    intro c hc
    have hc1 : c ∈ l := List.mem_reverse.mp hc
    have : c ≠ Separator := fun h => hs (h ▸ hc1)
    simp [IsPathSeparator, this]
  have hstrip : stripTrailingSlashes (pre ++ l) = pre ++ l := by
    unfold stripTrailingSlashes
    rw [List.reverse_append]
    cases hr : l.reverse with
    | nil => exact absurd (List.reverse_eq_nil_iff.mp hr) hl
    | cons c cs =>
      have hc := hnot c (by rw [hr]; exact List.mem_cons_self _ _)
      simp only [Bool.not_eq_true'] at hc
      have hdrop : (c :: cs ++ pre.reverse).dropWhile IsPathSeparator =
          c :: cs ++ pre.reverse := by
        simp [List.dropWhile, hc]
      rw [hdrop, ← hr, ← List.reverse_append, List.reverse_reverse]
  have hlast : lastElement (pre ++ l) = l := by
    unfold lastElement
    rw [List.reverse_append, List.takeWhile_append_of_pos hnot]
    have : pre.reverse.takeWhile (fun c => !IsPathSeparator c) = [] := by
      rcases hpre with rfl | ⟨pre1, rfl⟩
      · rfl
      · simp [List.takeWhile, IsPathSeparator]
    rw [this, List.append_nil, List.reverse_reverse]
  unfold Base
  have hne : pre ++ l ≠ [] := by simp [hl]
  simp only [hne, if_false, hstrip, hlast, hl]

/-- Claim C4.  For an identifier made of one or more non-empty segments joined
by `/`, `NewProject` keeps the identifier verbatim as `ProjectName` and takes
its final segment as `FolderName`. -/
theorem NewProject_folder (segs : List GoString) (hne : segs ≠ [])
    (hseg : ∀ s ∈ segs, s ≠ [] ∧ Separator ∉ s) :
    (NewProject ([Separator].intercalate segs)).ProjectName = [Separator].intercalate segs ∧
    (NewProject ([Separator].intercalate segs)).FolderName = segs.getLast hne := by
  refine ⟨rfl, ?_⟩
  have hl := hseg _ (List.getLast_mem hne)
  show Base ([Separator].intercalate segs) = segs.getLast hne
  conv_lhs => rw [← List.dropLast_append_getLast hne]
  rw [intercalate_concat]
  split
  · exact Base_append [] _ hl.1 hl.2 (Or.inl rfl)
  · exact Base_append _ _ hl.1 hl.2 (Or.inr ⟨_, rfl⟩)

/-- Claim C4 at `github.com/acme/widget`: the folder name is `widget`. -/
theorem NewProject_folder_witness :
    ["github.com".toList, "acme".toList, "widget".toList] ≠ [] ∧
    (∀ s ∈ ["github.com".toList, "acme".toList, "widget".toList],
      s ≠ [] ∧ Separator ∉ s) ∧
    (NewProject "github.com/acme/widget".toList).ProjectName =
      "github.com/acme/widget".toList ∧
    (NewProject "github.com/acme/widget".toList).FolderName = "widget".toList :=
  ⟨by decide, by decide,
    NewProject_folder ["github.com".toList, "acme".toList, "widget".toList] (by decide)
      (by decide)⟩

/-! ### Replacement -/

theorem keptLoop_ne_nil {α : Type} [DecidableEq α] (old : List α) (k : Nat) (s : List α) :
    keptLoop old k s ≠ [] := by
  induction s generalizing k with
  | nil => simp [keptLoop]
  | cons c cs ih =>
    cases k with
    | succ k => simpa [keptLoop] using ih k
    | zero =>
      unfold keptLoop
      split
      · simp
      · split <;> simp

theorem intercalate_cons_cons {α : Type} (new p : List α) (q : List α) (ps : List (List α)) :
    new.intercalate (p :: q :: ps) = p ++ new ++ new.intercalate (q :: ps) := by
  simp [List.intercalate, List.intersperse]

theorem intercalate_nil_cons {α : Type} (new : List α) (ps : List (List α)) (h : ps ≠ []) :
    new.intercalate ([] :: ps) = new ++ new.intercalate ps := by
  cases ps with
  | nil => exact absurd rfl h
  | cons q qs => simp [intercalate_cons_cons]

theorem intercalate_cons_head {α : Type} (new : List α) (c : α) (p : List α)
    (ps : List (List α)) :
    new.intercalate ((c :: p) :: ps) = c :: new.intercalate (p :: ps) := by
  cases ps with
  | nil => simp [List.intercalate, List.intersperse]
  | cons q qs => simp [intercalate_cons_cons]

/-- The scan of `bytes.Replace` joins the stretches it keeps with `new`. -/
theorem replaceLoop_eq {α : Type} [DecidableEq α] (old new : List α) (k : Nat) (s : List α) :
    replaceLoop old new k s = new.intercalate (keptLoop old k s) := by
  induction s generalizing k with
  | nil => simp [replaceLoop, keptLoop, List.intercalate, List.intersperse]
  | cons c cs ih =>
    cases k with
    | succ k => simpa [replaceLoop, keptLoop] using ih k
    | zero =>
      unfold replaceLoop keptLoop
      split
      · rw [ih, intercalate_nil_cons _ _ (keptLoop_ne_nil _ _ _)]
      · rw [ih]
        cases hk : keptLoop old 0 cs with
        | nil => exact absurd hk (keptLoop_ne_nil _ _ _)
        | cons p ps => simp [intercalate_cons_head]

theorem keptLoop_head {α : Type} [DecidableEq α] (old : List α) (s : List α) :
    ∃ p ps, keptLoop old 0 s = p :: ps ∧ p <+: s := by
  induction s with
  | nil => exact ⟨[], [], rfl, List.prefix_refl _⟩
  | cons c cs ih =>
    unfold keptLoop
    split
    · exact ⟨[], _, rfl, List.nil_prefix⟩
    · obtain ⟨p, ps, h1, h2⟩ := ih
      rw [h1]
      exact ⟨c :: p, ps, rfl, by simpa using h2⟩

/-- No stretch kept by the scan contains `old`. -/
theorem keptLoop_free {α : Type} [DecidableEq α] (old : List α) (hold : old ≠ []) (k : Nat)
    (s : List α) :
    ∀ p ∈ keptLoop old k s, ¬ old <:+: p := by
  induction s generalizing k with
  | nil =>
    intro p hp
    simp only [keptLoop, List.mem_singleton] at hp
    subst hp
    simpa using hold
  | cons c cs ih =>
    cases k with
    | succ k => simpa [keptLoop] using ih k
    | zero =>
      unfold keptLoop
      split
      · intro p hp
        rcases List.mem_cons.mp hp with rfl | hp
        · simpa using hold
        · exact ih _ p hp
      · next hnp =>
        obtain ⟨q, qs, h1, h2⟩ := keptLoop_head old cs
        have ih0 := ih 0
        rw [h1] at ih0 ⊢
        intro p hp
        rcases List.mem_cons.mp hp with rfl | hp
        · intro hin
          rcases List.infix_cons_iff.mp hin with hpre | hin2
          · apply hnp
            have : old <+: c :: cs := hpre.trans (by simpa using h2)
            simpa using this
          · exact ih0 q (List.mem_cons_self _ _) hin2
        · exact ih0 p (List.mem_cons_of_mem _ hp)



/-- Joined with `old`, the stretches kept by the scan give back the text
scanned. -/
theorem keptLoop_join {α : Type} [DecidableEq α] (old : List α) (hold : old ≠ []) (k : Nat)
    (s : List α) :
    old.intercalate (keptLoop old k s) = s.drop k := by
  induction s generalizing k with
  | nil => simp [keptLoop, List.intercalate]
  | cons c cs ih =>
    cases k with
    | succ k => simpa [keptLoop] using ih k
    | zero =>
      unfold keptLoop
      split
      · next hp =>
        rw [intercalate_nil_cons _ _ (keptLoop_ne_nil _ _ _), ih]
        obtain ⟨t, ht⟩ := List.isPrefixOf_iff_prefix.mp hp
        cases old with
        | nil => exact absurd rfl hold
        | cons a as =>
          simp only [List.cons_append, List.cons.injEq] at ht
          simp only [List.length_cons, Nat.add_sub_cancel, List.drop_zero]
          rw [← ht.2, ← ht.1]
          simp
      · rw [List.drop_zero]
        have := ih 0
        rw [List.drop_zero] at this
        cases hk : keptLoop old 0 cs with
        | nil => exact absurd hk (keptLoop_ne_nil _ _ _)
        | cons p ps =>
          rw [hk] at this
          simp only [intercalate_cons_head, this]

theorem keptLoop_head_match {α : Type} [DecidableEq α] (old : List α) (s p r : List α)
    (rs : List (List α))
    (h : keptLoop old 0 s = p :: r :: rs) : p ++ old <+: s := by
  induction s generalizing p with
  | nil => simp [keptLoop] at h
  | cons c cs ih =>
    unfold keptLoop at h
    split at h
    · next hp =>
      simp only [List.cons.injEq] at h
      rw [← h.1]
      simpa using List.isPrefixOf_iff_prefix.mp hp
    · cases hk : keptLoop old 0 cs with
      | nil => exact absurd hk (keptLoop_ne_nil _ _ _)
      | cons q qs =>
        rw [hk] at h
        simp only [List.cons.injEq] at h
        obtain ⟨rfl, rfl⟩ := h
        have := ih q hk
        simpa using this

theorem not_occurs_dropLast {α : Type} (old : List α) (hold : old ≠ []) :
    ¬ old <:+: old.dropLast := by
  intro h
  have h1 := h.length_le
  have h2 : old.length ≠ 0 := fun h0 => hold (List.length_eq_zero.mp h0)
  simp only [List.length_dropLast] at h1
  omega

/-- Before each occurrence replaced there is no earlier one: a stretch kept,
followed by `old` without its last element, does not contain `old`. -/
theorem keptLoop_leftmost {α : Type} [DecidableEq α] (old : List α) (hold : old ≠ [])
    (k : Nat) (s : List α) :
    ∀ q ∈ (keptLoop old k s).dropLast, ¬ old <:+: q ++ old.dropLast := by
  induction s generalizing k with
  | nil => simp [keptLoop]
  | cons c cs ih =>
    cases k with
    | succ k => simpa [keptLoop] using ih k
    | zero =>
      unfold keptLoop
      split
      · intro q hq
        rw [List.dropLast_cons_of_ne_nil (keptLoop_ne_nil _ _ _)] at hq
        rcases List.mem_cons.mp hq with rfl | hq
        · simpa using not_occurs_dropLast old hold
        · exact ih _ q hq
      · next hnp =>
        have ih0 := ih 0
        cases hk : keptLoop old 0 cs with
        | nil => exact absurd hk (keptLoop_ne_nil _ _ _)
        | cons p ps =>
          rw [hk] at ih0
          simp only
          cases ps with
          | nil => simp
          | cons r rs =>
            intro q hq
            rw [List.dropLast_cons_of_ne_nil (by simp)] at hq
            rw [List.dropLast_cons_of_ne_nil (by simp)] at ih0
            rcases List.mem_cons.mp hq with rfl | hq
            · intro hin
              rw [List.cons_append] at hin
              rcases List.infix_cons_iff.mp hin with hpre | hin2
              · apply hnp
                have h1 : p ++ old <+: cs := keptLoop_head_match old cs p r rs hk
                have h2 : p ++ old.dropLast <+: p ++ old :=
                  (List.prefix_append_right_inj p).mpr (List.dropLast_prefix old)
                have h3 : c :: (p ++ old.dropLast) <+: c :: cs :=
                  List.cons_prefix_cons.mpr ⟨rfl, h2.trans h1⟩
                exact List.isPrefixOf_iff_prefix.mpr (hpre.trans h3)
              · exact ih0 p (List.mem_cons_self _ _) hin2
            · exact ih0 q (List.mem_cons_of_mem _ hq)

/-- An occurrence of `old` in `x ++ new ++ y` lies in `x` or in `y` when `old`
and `new` do not overlap: neither occurs in the other, no non-empty end of
`old` begins `new`, and no non-empty beginning of `old` ends `new`. -/
theorem occurrence_split {α : Type} (old new x y : List α)
    (h1 : ¬ old <:+: new) (h2 : ¬ new <:+: old)
    (h3 : ∀ t ∈ old.tails, t ≠ [] → ¬ t <+: new)
    (h4 : ∀ t ∈ old.inits, t ≠ [] → ¬ t <:+ new)
    (h : old <:+: x ++ new ++ y) : old <:+: x ∨ old <:+: y := by
  obtain ⟨s, t, hst⟩ := h
  rw [List.append_assoc, List.append_assoc] at hst
  rcases List.append_eq_append_iff.mp hst with ⟨a, hx, ha⟩ | ⟨c, -, hc⟩
  · -- the occurrence starts in `x`
    rcases List.append_eq_append_iff.mp ha with ⟨b, hab, -⟩ | ⟨c, hold, hc⟩
    · exact Or.inl ⟨s, b, by rw [hx, hab, List.append_assoc]⟩
    · by_cases hcn : c = []
      · subst hcn
        exact Or.inl ⟨s, [], by rw [hx, hold]; simp⟩
      · exfalso
        rcases List.append_eq_append_iff.mp hc with ⟨e, hce, -⟩ | ⟨d, hnew, -⟩
        · exact h2 ⟨a, e, by rw [hold, hce, List.append_assoc]⟩
        · exact h3 c ((List.mem_tails c old).mpr ⟨a, hold.symm⟩) hcn ⟨d, hnew.symm⟩
  · -- the occurrence starts in `new` or in `y`
    rcases List.append_eq_append_iff.mp hc with ⟨e, -, hy⟩ | ⟨e, hnew, he⟩
    · exact Or.inr ⟨e, t, by rw [hy, List.append_assoc]⟩
    · by_cases hen : e = []
      · subst hen
        exact Or.inr ⟨[], t, by simpa using he⟩
      · exfalso
        rcases List.append_eq_append_iff.mp he with ⟨g, heg, -⟩ | ⟨f, hold, -⟩
        · exact h1 ⟨c, g, by rw [hnew, heg, List.append_assoc]⟩
        · exact h4 e ((List.mem_inits e old).mpr ⟨f, hold.symm⟩) hen ⟨c, hnew.symm⟩

/-- Joining stretches free of `old` with a `new` that does not overlap `old`
creates no occurrence of `old`. -/
theorem intercalate_free {α : Type} (old new : List α) (hold : old ≠ [])
    (h1 : ¬ old <:+: new) (h2 : ¬ new <:+: old)
    (h3 : ∀ t ∈ old.tails, t ≠ [] → ¬ t <+: new)
    (h4 : ∀ t ∈ old.inits, t ≠ [] → ¬ t <:+ new)
    (ps : List (List α)) (hps : ∀ p ∈ ps, ¬ old <:+: p) :
    ¬ old <:+: new.intercalate ps := by
  induction ps with
  | nil =>
    intro h
    exact hold (List.eq_nil_of_infix_nil (by simpa [List.intercalate] using h))
  | cons p ps ih =>
    cases ps with
    | nil => simpa [List.intercalate] using hps p (List.mem_cons_self _ _)
    | cons q qs =>
      rw [intercalate_cons_cons]
      intro h
      rcases occurrence_split old new p _ h1 h2 h3 h4 h with h5 | h5
      · exact hps p (List.mem_cons_self _ _) h5
      · exact ih (fun r hr => hps r (List.mem_cons_of_mem _ hr)) h5

/-- Claim C3, amended.  For a non-empty `old`, `data` is made of stretches
joined by `old`, and `ReplaceAll data old new` is the same stretches joined by
`new`.  No stretch contains `old`, and the occurrences replaced are the first
ones from the left: a stretch followed by `old` without its last element does
not contain `old`.  The result contains no occurrence of `old` when `old` and
`new` do not overlap: neither occurs in the other, no non-empty end of `old`
begins `new`, and no non-empty beginning of `old` ends `new`. -/
theorem ReplaceAll_kept {α : Type} [DecidableEq α] (data old new : List α) (hold : old ≠ []) :
    old.intercalate (kept data old) = data ∧
    ReplaceAll data old new = new.intercalate (kept data old) ∧
    (∀ p ∈ kept data old, ¬ old <:+: p) ∧
    (∀ q ∈ (kept data old).dropLast, ¬ old <:+: q ++ old.dropLast) ∧
    (¬ old <:+: new → ¬ new <:+: old →
      (∀ t ∈ old.tails, t ≠ [] → ¬ t <+: new) →
      (∀ t ∈ old.inits, t ≠ [] → ¬ t <:+ new) →
      ¬ old <:+: ReplaceAll data old new) := by
  have h0 : old.intercalate (kept data old) = data := by
    simpa [kept] using keptLoop_join old hold 0 data
  have h1 : ReplaceAll data old new = new.intercalate (kept data old) := by
    simp only [ReplaceAll, hold, if_false, kept]
    exact replaceLoop_eq old new 0 data
  have h2 : ∀ p ∈ kept data old, ¬ old <:+: p := keptLoop_free old hold 0 data
  exact ⟨h0, h1, h2, keptLoop_leftmost old hold 0 data,
    fun h3 h4 h5 h6 => h1 ▸ intercalate_free old new hold h3 h4 h5 h6 _ h2⟩

/-- Claim C3, amended, with the module path of the template replaced by
`kit/app` in an import line. -/
theorem ReplaceAll_kept_witness :
    "github.com/Q1mi/gin-layout-base".toList ≠ [] ∧
    ¬ "github.com/Q1mi/gin-layout-base".toList <:+: "kit/app".toList ∧
    ¬ "kit/app".toList <:+: "github.com/Q1mi/gin-layout-base".toList ∧
    (∀ t ∈ "github.com/Q1mi/gin-layout-base".toList.tails, t ≠ [] →
      ¬ t <+: "kit/app".toList) ∧
    (∀ t ∈ "github.com/Q1mi/gin-layout-base".toList.inits, t ≠ [] →
      ¬ t <:+ "kit/app".toList) ∧
    ¬ "github.com/Q1mi/gin-layout-base".toList <:+:
      ReplaceAll "import github.com/Q1mi/gin-layout-base/pkg".toList
        "github.com/Q1mi/gin-layout-base".toList "kit/app".toList :=
  ⟨by decide, by decide, by decide, by decide, by decide,
    (ReplaceAll_kept "import github.com/Q1mi/gin-layout-base/pkg".toList
      "github.com/Q1mi/gin-layout-base".toList "kit/app".toList
      (by decide)).2.2.2.2 (by decide) (by decide) (by decide) (by decide)⟩

/-- None of the four conditions of non-overlap can be dropped: in each of
these cases one of them fails, the other three hold, and the result contains
`old`.  (`old` occurs in `new`; `new` occurs in `old`; an end of `old` begins
`new`; a beginning of `old` ends `new`.) -/
theorem ReplaceAll_overlap_cases :
    "ab".toList <:+: ReplaceAll "ab".toList "ab".toList "xaby".toList ∧
    "abc".toList <:+: ReplaceAll "aabcc".toList "abc".toList "b".toList ∧
    "ab".toList <:+: ReplaceAll "aab".toList "ab".toList "bc".toList ∧
    "ab".toList <:+: ReplaceAll "abb".toList "ab".toList "ca".toList ∧
    (¬ "xaby".toList <:+: "ab".toList ∧
      (∀ t ∈ "ab".toList.tails, t ≠ [] → ¬ t <+: "xaby".toList) ∧
      (∀ t ∈ "ab".toList.inits, t ≠ [] → ¬ t <:+ "xaby".toList)) ∧
    (¬ "abc".toList <:+: "b".toList ∧
      (∀ t ∈ "abc".toList.tails, t ≠ [] → ¬ t <+: "b".toList) ∧
      (∀ t ∈ "abc".toList.inits, t ≠ [] → ¬ t <:+ "b".toList)) ∧
    (¬ "ab".toList <:+: "bc".toList ∧ ¬ "bc".toList <:+: "ab".toList ∧
      (∀ t ∈ "ab".toList.inits, t ≠ [] → ¬ t <:+ "bc".toList)) ∧
    (¬ "ab".toList <:+: "ca".toList ∧ ¬ "ca".toList <:+: "ab".toList ∧
      (∀ t ∈ "ab".toList.tails, t ≠ [] → ¬ t <+: "ca".toList)) := by
  decide

/-- Claim C3 as stated fails: when the new identifier contains the old one
(`base` replaced by `mybase`), the rewritten content still contains `base`. -/
theorem ReplaceAll_leaves_old :
    "base".toList ≠ [] ∧
    "base".toList <:+:
      ReplaceAll "import base/pkg".toList "base".toList "mybase".toList :=
  ⟨by decide, "import my".toList, "/pkg".toList, by decide⟩

/-! ### Scanning the manifest -/

theorem skipBlanks_spec (t : List Char) :
    ∃ sp, t = sp ++ skipBlanks t ∧ ∀ c ∈ sp, isBlank c = true := by
  induction t with
  | nil => exact ⟨[], rfl, by simp⟩
  | cons c cs ih =>
    unfold skipBlanks
    by_cases h : (isSpace c && c != '\n') = true
    · obtain ⟨sp, h1, h2⟩ := ih
      refine ⟨c :: sp, ?_, ?_⟩
      · simp only [h, if_true, List.cons_append]; rw [← h1]
      · intro d hd
        rcases List.mem_cons.mp hd with rfl | hd
        · exact h
        · exact h2 d hd
    · exact ⟨[], by simp [h], by simp⟩

theorem skipBlanks_append (ws x : List Char) (hws : ∀ c ∈ ws, isBlank c = true)
    (hx : ∀ c, x.head? = some c → isBlank c = false) : skipBlanks (ws ++ x) = x := by
  induction ws with
  | nil =>
    cases x with
    | nil => rfl
    | cons c cs =>
      have := hx c rfl
      simp only [isBlank] at this
      simp [skipBlanks, this]
  | cons c cs ih =>
    have hc := hws c (List.mem_cons_self _ _)
    simp only [isBlank] at hc
    simp only [List.cons_append, skipBlanks, hc, if_true]
    exact ih (fun d hd => hws d (List.mem_cons_of_mem _ hd))

/-- What `SkipSpace` passes over is made of blanks, and what it leaves does
not begin with a space. -/
theorem SkipSpace_spec (t u : List Char) (h : SkipSpace t = .ok u) :
    ∃ sp, t = sp ++ u ∧ (∀ c ∈ sp, isBlank c = true) ∧
      ∀ c, u.head? = some c → isSpace c = false := by
  induction t with
  | nil =>
    simp only [SkipSpace, Except.ok.injEq] at h
    subst h
    exact ⟨[], rfl, by simp, by simp⟩
  | cons r input ih =>
    unfold SkipSpace at h
    split at h
    · next hr =>
      obtain ⟨sp, h1, h2, h3⟩ := ih h
      refine ⟨r :: sp, by rw [List.cons_append, ← h1], ?_, h3⟩
      intro d hd
      rcases List.mem_cons.mp hd with rfl | hd
      · rw [hr.1]; decide
      · exact h2 d hd
    · split at h
      · exact absurd h (by simp)
      · next hn =>
        split at h
        · next hs =>
          simp only [Except.ok.injEq] at h
          subst h
          refine ⟨[], rfl, by simp, ?_⟩
          intro c hc
          simp only [List.head?_cons, Option.some.injEq] at hc
          subst hc
          simpa using hs
        · next hs =>
          obtain ⟨sp, h1, h2, h3⟩ := ih h
          refine ⟨r :: sp, by rw [List.cons_append, ← h1], ?_, h3⟩
          intro d hd
          rcases List.mem_cons.mp hd with rfl | hd
          · simp only [isBlank, Bool.and_eq_true, bne_iff_ne, ne_eq]
            exact ⟨by simpa using hs, hn⟩
          · exact h2 d hd

theorem SkipSpace_fixed (u : List Char) (h : ∀ c, u.head? = some c → isSpace c = false) :
    SkipSpace u = .ok u := by
  cases u with
  | nil => rfl
  | cons c cs =>
    have hc := h c rfl
    have h1 : c ≠ '\r' := by rintro rfl; exact absurd hc (by decide)
    have h2 : c ≠ '\n' := by rintro rfl; exact absurd hc (by decide)
    simp [SkipSpace, h1, h2, hc]

theorem moduleFormat_eq :
    "module %s".toList = ['m', 'o', 'd', 'u', 'l', 'e', ' ', '%', 's'] := rfl

theorem doScanf_literal (fmtc : Char) (format input : List Char) (h1 : fmtc ≠ '%')
    (h2 : isSpace fmtc = false) :
    doScanf (fmtc :: format) input =
      match advanceLiteral fmtc input with
      | .error err => .error err
      | .ok input => doScanf format input := by
  rw [doScanf.eq_3]
  · simp [h2]
  · intro f hf
    exact absurd hf h1

theorem doScanf_space (format input : List Char) :
    doScanf (' ' :: format) input =
      match advanceSpace input with
      | .error err => .error err
      | .ok input => doScanf format input := by
  rw [doScanf.eq_3]
  · have : isSpace ' ' = true := by decide
    simp [this]
  · intro f hf
    exact absurd hf (by decide)

theorem doScanf_literal_ok (fmtc : Char) (format input : List Char) (strs : List GoString)
    (h1 : fmtc ≠ '%') (h2 : isSpace fmtc = false)
    (h : doScanf (fmtc :: format) input = .ok strs) :
    ∃ t, input = fmtc :: t ∧ doScanf format t = .ok strs := by
  rw [doScanf_literal _ _ _ h1 h2] at h
  cases input with
  | nil => simp [advanceLiteral] at h
  | cons c cs =>
    by_cases hc : fmtc = c
    · subst hc
      simp only [advanceLiteral, if_true] at h
      exact ⟨cs, rfl, h⟩
    · simp [advanceLiteral, hc] at h

theorem convertString_word (name rest : List Char) (hn : name ≠ [])
    (hname : ∀ c ∈ name, isSpace c = false)
    (hrest : ∀ c, rest.head? = some c → isSpace c = true) :
    convertString (name ++ rest) = .ok (name, rest) := by
  have hhead : ∀ c, (name ++ rest).head? = some c → isSpace c = false := by
    intro c hc
    cases name with
    | nil => exact absurd rfl hn
    | cons d ds =>
      simp only [List.cons_append, List.head?_cons, Option.some.injEq] at hc
      subst hc
      exact hname _ (List.mem_cons_self _ _)
  have hne : name ++ rest ≠ [] := by simp [hn]
  have hspan : (name ++ rest).span (fun r => !isSpace r) = (name, rest) := by
    rw [List.span_eq_take_drop]
    have h1 : ∀ c ∈ name, (fun r => !isSpace r) c = true := by
      intro c hc; simp [hname c hc]
    have h2 : rest.takeWhile (fun r => !isSpace r) = [] := by
      cases rest with
      | nil => rfl
      | cons c cs => simp [List.takeWhile, hrest c rfl]
    have h3 : rest.dropWhile (fun r => !isSpace r) = rest := by
      cases rest with
      | nil => rfl
      | cons c cs => simp [List.dropWhile, hrest c rfl]
    rw [List.takeWhile_append_of_pos h1, List.dropWhile_append_of_pos h1, h2, h3]
    simp
  unfold convertString
  rw [SkipSpace_fixed _ hhead]
  cases hx : name ++ rest with
  | nil => exact absurd hx hne
  | cons c cs =>
    simp only
    rw [← hx, SkipSpace_fixed _ hhead]
    simp only
    rw [hspan]

/-- Scanning with `module %s` a text that begins with the shape
`module <name>` yields `name`. -/
theorem Fscanf_module_complete (text name : GoString) (h : BeginsWithModule text name) :
    Fscanf text "module %s".toList = .ok name := by
  obtain ⟨ws, rest, rfl, hws, hblank, hn, hname, hrest⟩ := h
  have hhead : ∀ c, (name ++ rest).head? = some c → isSpace c = false := by
    intro c hc
    cases name with
    | nil => exact absurd rfl hn
    | cons d ds =>
      simp only [List.cons_append, List.head?_cons, Option.some.injEq] at hc
      subst hc
      exact hname _ (List.mem_cons_self _ _)
  cases ws with
  | nil => exact absurd rfl hws
  | cons c cs =>
    have hc := hblank c (List.mem_cons_self _ _)
    simp only [isBlank, Bool.and_eq_true, bne_iff_ne, ne_eq] at hc
    have hskip : skipBlanks (cs ++ (name ++ rest)) = name ++ rest :=
      skipBlanks_append cs _ (fun d hd => hblank d (List.mem_cons_of_mem _ hd))
        (fun d hd => by simp [isBlank, hhead d hd])
    have hm : "module".toList = ['m', 'o', 'd', 'u', 'l', 'e'] := rfl
    have hd : doScanf "module %s".toList
        ("module".toList ++ (c :: cs) ++ name ++ rest) = .ok [name] := by
      rw [moduleFormat_eq, hm]
      simp only [List.cons_append, List.nil_append, List.append_assoc]
      rw [doScanf_literal _ _ _ (by decide) (by decide)]
      simp only [advanceLiteral, if_true]
      rw [doScanf_literal _ _ _ (by decide) (by decide)]
      simp only [advanceLiteral, if_true]
      rw [doScanf_literal _ _ _ (by decide) (by decide)]
      simp only [advanceLiteral, if_true]
      rw [doScanf_literal _ _ _ (by decide) (by decide)]
      simp only [advanceLiteral, if_true]
      rw [doScanf_literal _ _ _ (by decide) (by decide)]
      simp only [advanceLiteral, if_true]
      rw [doScanf_literal _ _ _ (by decide) (by decide)]
      simp only [advanceLiteral, if_true]
      rw [doScanf_space]
      simp only [advanceSpace, hc.1, hc.2, Bool.not_true, Bool.false_eq_true, if_false, hskip]
      rw [doScanf.eq_2]
      simp only [SkipSpace_fixed _ hhead, convertString_word name rest hn hname hrest,
        doScanf]
    simp only [Fscanf, hd]

theorem convertString_spec (t name rest : List Char)
    (h : convertString t = .ok (name, rest)) :
    ∃ sp, t = sp ++ name ++ rest ∧ (∀ c ∈ sp, isBlank c = true) ∧ name ≠ [] ∧
      (∀ c ∈ name, isSpace c = false) ∧ ∀ c, rest.head? = some c → isSpace c = true := by
  unfold convertString at h
  cases hu : SkipSpace t with
  | error e => simp [hu] at h
  | ok u =>
    obtain ⟨sp, h1, h2, h3⟩ := SkipSpace_spec t u hu
    rw [hu] at h
    cases u with
    | nil => simp at h
    | cons c cs =>
      simp only [SkipSpace_fixed _ h3, Except.ok.injEq, List.span_eq_take_drop,
        Prod.mk.injEq] at h
      obtain ⟨hname, hrest⟩ := h
      have hc : isSpace c = false := h3 c rfl
      refine ⟨sp, ?_, h2, ?_, ?_, ?_⟩
      · rw [h1, ← hname, ← hrest, List.append_assoc, List.takeWhile_append_dropWhile]
      · rw [← hname]; simp [List.takeWhile, hc]
      · intro d hd
        rw [← hname] at hd
        simpa using List.mem_takeWhile_imp hd
      · intro d hd
        rw [← hrest] at hd
        have := List.head?_dropWhile_not (fun r => !isSpace r) (c :: cs)
        rw [hd] at this
        simpa using this

/-- Scanning with `module %s` succeeds only on a text that begins with the
shape `module <name>`. -/
theorem Fscanf_module_sound (text name : GoString)
    (h : Fscanf text "module %s".toList = .ok name) : BeginsWithModule text name := by
  have hd : doScanf "module %s".toList text = .ok [name] := by
    unfold Fscanf at h
    split at h
    · simp at h
    · simp at h
    · next str heq => simp only [Except.ok.injEq] at h; rw [heq, h]
    · simp at h
  rw [moduleFormat_eq] at hd
  obtain ⟨t1, rfl, hd1⟩ := doScanf_literal_ok _ _ _ _ (by decide) (by decide) hd
  obtain ⟨t2, rfl, hd2⟩ := doScanf_literal_ok _ _ _ _ (by decide) (by decide) hd1
  obtain ⟨t3, rfl, hd3⟩ := doScanf_literal_ok _ _ _ _ (by decide) (by decide) hd2
  obtain ⟨t4, rfl, hd4⟩ := doScanf_literal_ok _ _ _ _ (by decide) (by decide) hd3
  obtain ⟨t5, rfl, hd5⟩ := doScanf_literal_ok _ _ _ _ (by decide) (by decide) hd4
  obtain ⟨t6, rfl, hd6⟩ := doScanf_literal_ok _ _ _ _ (by decide) (by decide) hd5
  clear hd hd1 hd2 hd3 hd4 hd5 h
  have hd := hd6
  clear hd6
  rw [doScanf_space] at hd
  cases ha : advanceSpace t6 with
  | error e => simp [ha] at hd
  | ok t7 =>
    simp only [ha] at hd
    rw [doScanf.eq_2] at hd
    cases hs : SkipSpace t7 with
    | error e => simp [hs] at hd
    | ok t8 =>
      simp only [hs] at hd
      cases hc : convertString t8 with
      | error e => simp [hc] at hd
      | ok r =>
        obtain ⟨str, rest⟩ := r
        simp only [hc, doScanf, Except.ok.injEq, List.cons.injEq, and_true] at hd
        subst hd
        obtain ⟨sp3, h3, hb3, hn, hname, hrest⟩ := convertString_spec _ _ _ hc
        obtain ⟨sp2, h2, hb2, -⟩ := SkipSpace_spec _ _ hs
        cases t6 with
        | nil =>
          simp only [advanceSpace, Except.ok.injEq] at ha
          subst ha
          simp only [SkipSpace, Except.ok.injEq] at hs
          subst hs
          simp [convertString, SkipSpace] at hc
        | cons c cs =>
          have hsp : isSpace c = true := by
            by_contra hx
            simp [advanceSpace, hx] at ha
          have hnl : c ≠ '\n' := by
            intro hx
            subst hx
            simp [advanceSpace, hsp] at ha
          simp only [advanceSpace, hsp, hnl, Bool.not_true, Bool.false_eq_true, if_false,
            Except.ok.injEq] at ha
          obtain ⟨sp1, h1, hb1⟩ := skipBlanks_spec cs
          refine ⟨c :: (sp1 ++ sp2 ++ sp3), rest, ?_, by simp, ?_, hn, hname, hrest⟩
          · have hm : "module".toList = ['m', 'o', 'd', 'u', 'l', 'e'] := rfl
            rw [hm, h1, ha, h2, h3]
            simp
          · intro d hd
            simp only [List.mem_cons, List.mem_append] at hd
            rcases hd with rfl | (hd | hd) | hd
            · simp only [isBlank, Bool.and_eq_true, bne_iff_ne, ne_eq]
              exact ⟨hsp, hnl⟩
            · exact hb1 d hd
            · exact hb2 d hd
            · exact hb3 d hd

theorem getModuleName_frame (p : Project) (s : State) :
    (getModuleName p s).2.fs = s.fs ∧ (getModuleName p s).2.cmds = s.cmds := by
  unfold getModuleName
  split
  · exact ⟨rfl, rfl⟩
  · split
    · exact ⟨rfl, rfl⟩
    · exact ⟨rfl, rfl⟩

/-- A non-empty result of `getModuleName` comes from a readable regular file
`go.mod` whose text begins with the shape `module <name>`. -/
theorem getModuleName_ok (p : Project) (s : State) (name : GoString) (hn : name ≠ [])
    (h : (getModuleName p s).1 = name) :
    ∃ f, Stat s.fs (Join [p.FolderName, "go.mod".toList]) = some f ∧
      f.readable = true ∧ f.isDir = false ∧ BeginsWithModule f.data name := by
  unfold getModuleName at h
  unfold Open at h
  cases hs : Stat s.fs (Join [p.FolderName, "go.mod".toList]) with
  | none => rw [hs] at h; exact absurd h.symm hn
  | some f =>
    rw [hs] at h
    simp only at h
    by_cases hr : f.readable = true
    · by_cases hd : f.isDir = true
      · simp only [hr, if_true, Entry.read, hd, Except.bind] at h
        exact absurd h.symm hn
      · simp only [hr, if_true, Entry.read, hd, Bool.false_eq_true, if_false,
          Except.bind] at h
        cases hf : Fscanf f.data "module %s".toList with
        | error e => rw [hf] at h; exact absurd h.symm hn
        | ok m =>
          rw [hf] at h
          simp only at h
          subst h
          exact ⟨f, rfl, hr, by simpa using hd, Fscanf_module_sound _ _ hf⟩
    · simp only [hr, Bool.false_eq_true, if_false] at h
      exact absurd h.symm hn

/-- Claim C5.  When `FolderName/go.mod` is missing, or its text does not begin
with the shape `module <name>`, `replacePackageName` returns an error, the
file system is what it was (no file is rewritten) and no external command
(`go mod edit`) is started. -/
theorem replacePackageName_bad_manifest (w : World) (p : Project) (s : State)
    (h : Stat s.fs (Join [p.FolderName, "go.mod".toList]) = none ∨
      ∃ f, Stat s.fs (Join [p.FolderName, "go.mod".toList]) = some f ∧
        ¬ ∃ name, BeginsWithModule f.data name) :
    (replacePackageName w p s).1 = some ⟨"get module name error".toList⟩ ∧
    (replacePackageName w p s).2.fs = s.fs ∧
    (replacePackageName w p s).2.cmds = s.cmds := by
  have he : (getModuleName p (enter .replacePackageName s)).1 = [] := by
    by_contra hne
    obtain ⟨f, hf, -, -, hb⟩ := getModuleName_ok p (enter .replacePackageName s) _ hne rfl
    have hf2 : Stat s.fs (Join [p.FolderName, "go.mod".toList]) = some f := hf
    rcases h with h | ⟨g, hg, hno⟩
    · rw [h] at hf2; exact absurd hf2 (by simp)
    · rw [hg] at hf2
      simp only [Option.some.injEq] at hf2
      subst hf2
      exact hno ⟨_, hb⟩
  have hfr := getModuleName_frame p (enter .replacePackageName s)
  unfold replacePackageName
  simp only
  generalize getModuleName p (enter .replacePackageName s) = r at he hfr
  obtain ⟨m, t⟩ := r
  simp only at he hfr
  subst he
  simp only [List.length_nil, if_true]
  exact ⟨trivial, hfr.1, hfr.2⟩

/-- Claim C5 on a checkout whose manifest is the single word `module`. -/
theorem replacePackageName_bad_manifest_witness :
    (Stat (State.init badManifest).fs
        (Join [(NewProject "bar".toList).FolderName, "go.mod".toList]) = none ∨
      ∃ f, Stat (State.init badManifest).fs
          (Join [(NewProject "bar".toList).FolderName, "go.mod".toList]) = some f ∧
        ¬ ∃ name, BeginsWithModule f.data name) ∧
    (replacePackageName lockedGitWorld (NewProject "bar".toList)
      (State.init badManifest)).2.fs = badManifest :=
  have h : Stat (State.init badManifest).fs
        (Join [(NewProject "bar".toList).FolderName, "go.mod".toList]) = none ∨
      ∃ f, Stat (State.init badManifest).fs
          (Join [(NewProject "bar".toList).FolderName, "go.mod".toList]) = some f ∧
        ¬ ∃ name, BeginsWithModule f.data name :=
    Or.inr ⟨mkFile "bar/go.mod".toList "module".toList, by decide,
      fun ⟨name, hb⟩ => by
        have h1 : Fscanf "module".toList "module %s".toList = .ok name :=
          Fscanf_module_complete _ _ hb
        have h2 : Fscanf "module".toList "module %s".toList =
            .error ⟨"unexpected EOF".toList⟩ := rfl
        rw [h2] at h1
        exact absurd h1 (by simp)⟩
  ⟨h, (replacePackageName_bad_manifest lockedGitWorld (NewProject "bar".toList)
    (State.init badManifest) h).2.1⟩

/-- Claim C6, amended.  When the manifest can be read and its text begins with
`module`, one or more blanks and a non-empty word that ends at a space or at
the end of the text, `getModuleName` returns exactly that word and prints
nothing. -/
theorem getModuleName_module_line (p : Project) (s : State) (f : Entry) (name : GoString)
    (hf : Stat s.fs (Join [p.FolderName, "go.mod".toList]) = some f)
    (hr : f.readable = true) (hd : f.isDir = false)
    (h : BeginsWithModule f.data name) :
    getModuleName p s = (name, s) := by
  unfold getModuleName Open
  rw [hf]
  simp only [hr, if_true, Entry.read, hd, Bool.false_eq_true, if_false, Except.bind,
    Fscanf_module_complete _ _ h]

/-- Claim C6, amended, on the manifest of the template repository. -/
theorem getModuleName_module_line_witness :
    Stat (State.init templateCheckout).fs
      (Join [(NewProject "bar".toList).FolderName, "go.mod".toList]) =
      some (mkFile "bar/go.mod".toList
        "module github.com/Q1mi/gin-layout-base\n\ngo 1.20\n".toList) ∧
    BeginsWithModule "module github.com/Q1mi/gin-layout-base\n\ngo 1.20\n".toList
      "github.com/Q1mi/gin-layout-base".toList ∧
    (getModuleName (NewProject "bar".toList) (State.init templateCheckout)).1 =
      "github.com/Q1mi/gin-layout-base".toList :=
  have hb : BeginsWithModule "module github.com/Q1mi/gin-layout-base\n\ngo 1.20\n".toList
      "github.com/Q1mi/gin-layout-base".toList :=
    ⟨[' '], "\n\ngo 1.20\n".toList, by decide, by decide, by decide, by decide, by decide,
      fun c hc => by
        simp only [String.toList, List.head?_cons, Option.some.injEq] at hc
        subst hc
        decide⟩
  ⟨by decide, hb,
    congrArg Prod.fst (getModuleName_module_line (NewProject "bar".toList)
      (State.init templateCheckout)
      (mkFile "bar/go.mod".toList "module github.com/Q1mi/gin-layout-base\n\ngo 1.20\n".toList)
      "github.com/Q1mi/gin-layout-base".toList (by decide) rfl rfl hb)⟩

/-- Claim C6 as stated fails: a manifest whose first line is blank and whose
first non-blank line is `module github.com/Q1mi/gin-layout-base` makes
`getModuleName` return the empty string. -/
theorem getModuleName_blank_first_line :
    declaredModule "\nmodule github.com/Q1mi/gin-layout-base\n".toList =
      some "github.com/Q1mi/gin-layout-base".toList ∧
    Stat (State.init blankLineCheckout).fs
      (Join [(NewProject "bar".toList).FolderName, "go.mod".toList]) =
      some (mkFile "bar/go.mod".toList
        "\nmodule github.com/Q1mi/gin-layout-base\n".toList) ∧
    (getModuleName (NewProject "bar".toList) (State.init blankLineCheckout)).1 = [] := by
  decide


/-! ### Rewriting the tree -/

theorem isUnder_self (path : GoString) : isUnder path path = true := by
  simp [isUnder]

/-- When the folder is the working directory (`FolderName` is `.`), the files
rewritten are those of the working directory: `main.go` and `sub/x.go`. -/
theorem replaceFiles_working_directory :
    (NewProject "kit/.".toList).FolderName = ".".toList ∧
    (replaceFiles (NewProject "kit/.".toList) "base".toList (State.init flatTree)).1 = none ∧
    (replaceFiles (NewProject "kit/.".toList) "base".toList (State.init flatTree)).2.fs =
      [mkFile "main.go".toList "import kit/./pkg".toList,
       mkDir "sub".toList,
       mkFile "sub/x.go".toList "kit/.".toList] := by
  decide
/-! ### The pipeline -/

theorem Logs.refl (s : State) : Logs [] s s :=
  ⟨by simp, fun _ h => Or.inl h⟩

theorem Logs.trans {st1 st2 : List Stage} {s t u : State} (h1 : Logs st1 s t)
    (h2 : Logs st2 t u) : Logs (st1 ++ st2) s u := by
  refine ⟨by rw [h2.1, h1.1, List.append_assoc], fun l hl => ?_⟩
  rcases h2.2 l hl with h | h
  · exact h1.2 l h
  · exact Or.inr h

theorem Logs.setFs (s : State) (fs : FS) : Logs [] s { s with fs := fs } :=
  ⟨by simp, fun _ h => Or.inl h⟩

theorem Logs.enter (st : Stage) (s : State) : Logs [st] s (enter st s) :=
  ⟨rfl, fun _ h => Or.inl h⟩

theorem Logs.Printf (text : GoString) (s : State) (h : text.head? ≠ some '🎉') :
    Logs [] s (Printf text s) := by
  refine ⟨by simp [Cmd.Printf], fun l hl => ?_⟩
  simp only [Cmd.Printf, List.mem_append, List.mem_singleton] at hl
  rcases hl with hl | hl
  · exact Or.inl hl
  · exact Or.inr (hl ▸ h)

theorem Logs.CombinedOutput (w : World) (cmd : Command) (s : State) :
    Logs [] s (CombinedOutput w cmd s).2 :=
  ⟨by simp [Cmd.CombinedOutput], fun _ h => Or.inl h⟩

theorem successLine_head (p : Project) : (successLine p).head? = some '🎉' := rfl

theorem cloneRepoGit_logs (w : World) (p : Project) (s : State) :
    Logs [] s (cloneRepoGit w p s).2 := by
  unfold cloneRepoGit
  have h0 := Logs.Printf ("git clone ".toList ++ repoURL ++ ['\n']) s (by decide)
  have h1 := Logs.CombinedOutput w
    ⟨"git".toList, ["clone".toList, repoURL, p.ProjectName], []⟩
    (Printf ("git clone ".toList ++ repoURL ++ ['\n']) s)
  have h2 := h0.trans h1
  simp only
  split
  · next err t heq =>
    rw [heq] at h2
    exact h2.trans (Logs.Printf _ _ (by simp [repoURL]))
  · next t heq => rw [heq] at h2; exact h2

theorem Logs.Println2 (a b : GoString) (s : State) (h : a.head? ≠ some '🎉') (ha : a ≠ []) :
    Logs [] s (Println [a, b] s) := by
  apply Logs.Printf
  cases a with
  | nil => exact absurd rfl ha
  | cons c cs => simpa [List.intercalate] using h

theorem cloneRepo_logs (w : World) (p : Project) (s : State) :
    Logs [.cloneRepo] s (cloneRepo w p s).2 := by
  unfold cloneRepo
  have h0 := Logs.enter .cloneRepo s
  simp only
  split
  · split
    · exact h0
    · split
      · exact h0
      · split
        · next fs err heq =>
          exact (h0.trans (Logs.setFs _ fs)).trans
            (Logs.Println2 _ _ _ (by decide) (by decide))
        · next fs heq =>
          exact (h0.trans (Logs.setFs _ fs)).trans (cloneRepoGit_logs w p _)
  · exact h0.trans (cloneRepoGit_logs w p _)

theorem getModuleName_logs (p : Project) (s : State) : Logs [] s (getModuleName p s).2 := by
  unfold getModuleName
  split
  · exact Logs.Println2 _ _ _ (by decide) (by decide)
  · split
    · exact Logs.Println2 _ _ _ (by decide) (by decide)
    · exact Logs.refl s

theorem replaceFiles_logs (p : Project) (old : GoString) (s : State) :
    Logs [] s (replaceFiles p old s).2 := by
  unfold replaceFiles
  split
  · next fs err heq =>
    exact (Logs.setFs s fs).trans (Logs.Println2 _ _ _ (by decide) (by decide))
  · next fs heq => exact Logs.setFs s fs

theorem replacePackageName_logs (w : World) (p : Project) (s : State) :
    Logs [.replacePackageName] s (replacePackageName w p s).2 := by
  unfold replacePackageName
  have h0 := (Logs.enter .replacePackageName s).trans
    (getModuleName_logs p (enter .replacePackageName s))
  simp only
  generalize getModuleName p (enter .replacePackageName s) = r at h0 ⊢
  obtain ⟨moduleName, t⟩ := r
  simp only at h0 ⊢
  split
  · exact h0
  · have h1 := h0.trans (replaceFiles_logs p moduleName t)
    split
    · next err u hu => rw [hu] at h1; exact h1
    · next u hu =>
      rw [hu] at h1
      have h2 := h1.trans (Logs.CombinedOutput w
        ⟨"go".toList, ["mod".toList, "edit".toList, "-module".toList, p.ProjectName],
          p.FolderName⟩ u)
      split
      · next err v hv =>
        rw [hv] at h2
        exact h2.trans (Logs.Println2 _ _ _ (by decide) (by decide))
      · next v hv => rw [hv] at h2; exact h2

theorem modTidy_logs (w : World) (p : Project) (s : State) :
    Logs [.modTidy] s (modTidy w p s).2 := by
  unfold modTidy
  have h0 := (Logs.enter .modTidy s).trans
    (Logs.Printf ([' '].intercalate ["go mod tidy".toList] ++ ['\n']) (enter .modTidy s)
      (by decide))
  have h1 := h0.trans (Logs.CombinedOutput w
    ⟨"go".toList, ["mod".toList, "tidy".toList], p.FolderName⟩ _)
  simp only
  split
  · next err v hv =>
    simp only [Println] at hv
    rw [hv] at h1
    exact h1.trans (Logs.Println2 _ _ _ (by decide) (by decide))
  · next v hv =>
    simp only [Println] at hv
    rw [hv] at h1; exact h1

theorem rmGit_logs (p : Project) (s : State) : Logs [.rmGit] s (rmGit p s) := by
  unfold rmGit
  exact (Logs.enter .rmGit s).trans (Logs.setFs _ _)

theorem Logs.no_success {st : List Stage} {s t : State} (h : Logs st s t) (p : Project)
    (hs : successLine p ∉ s.stdout) : successLine p ∉ t.stdout := by
  intro hl
  rcases h.2 _ hl with h1 | h1
  · exact hs h1
  · exact h1 (successLine_head p)

/-- The control flow of `run` on a non-empty argument list. -/
theorem run_cons (w : World) (a : GoString) (rest : List GoString) (s : State) :
    run w (a :: rest) s =
      if (cloneRepo w (NewProject a) s).1 ≠ (true, none) then
        .returned (cloneRepo w (NewProject a) s).2
      else if (replacePackageName w (NewProject a) (cloneRepo w (NewProject a) s).2).1 ≠ none
      then .returned (replacePackageName w (NewProject a) (cloneRepo w (NewProject a) s).2).2
      else if (modTidy w (NewProject a) (replacePackageName w (NewProject a)
          (cloneRepo w (NewProject a) s).2).2).1 ≠ none
      then .returned (modTidy w (NewProject a) (replacePackageName w (NewProject a)
          (cloneRepo w (NewProject a) s).2).2).2
      else .returned (printSuccess (NewProject a) (rmGit (NewProject a)
        (modTidy w (NewProject a) (replacePackageName w (NewProject a)
          (cloneRepo w (NewProject a) s).2).2).2)) := by
  simp only [run, List.getElem?_cons_zero, List.length_cons, Nat.add_one_ne_zero, if_false,
    printSuccess]
  generalize cloneRepo w (NewProject a) s = r
  obtain ⟨⟨yes, err⟩, s1⟩ := r
  generalize replacePackageName w (NewProject a) s1 = q
  obtain ⟨err2, s2⟩ := q
  generalize modTidy w (NewProject a) s2 = q3
  obtain ⟨err3, s3⟩ := q3
  cases yes <;> cases err <;> cases err2 <;> cases err3 <;> simp

/-- Claim C10.  With `r1`, `r2`, `r3` the results of `cloneRepo`,
`replacePackageName` and `modTidy` run one after the other, `run` returns in
the state left by the first of them that fails or is declined; and
`replacePackageName` is entered only if `cloneRepo` returned `(true, nil)`,
`modTidy` only if moreover `replacePackageName` returned no error, `rmGit` is
entered and the success message printed only if all three succeeded. -/
theorem run_stops_at_first_failure (w : World) (a : GoString) (rest : List GoString)
    (fs : FS) :
    let p := NewProject a
    let r1 := cloneRepo w p (State.init fs)
    let r2 := replacePackageName w p r1.2
    let r3 := modTidy w p r2.2
    let final := (run w (a :: rest) (State.init fs)).state
    (r1.1 ≠ (true, none) → run w (a :: rest) (State.init fs) = .returned r1.2) ∧
    (r1.1 = (true, none) → r2.1 ≠ none →
      run w (a :: rest) (State.init fs) = .returned r2.2) ∧
    (r1.1 = (true, none) → r2.1 = none → r3.1 ≠ none →
      run w (a :: rest) (State.init fs) = .returned r3.2) ∧
    (Stage.replacePackageName ∈ final.calls → r1.1 = (true, none)) ∧
    (Stage.modTidy ∈ final.calls → r1.1 = (true, none) ∧ r2.1 = none) ∧
    (Stage.rmGit ∈ final.calls ∨ successLine p ∈ final.stdout →
      r1.1 = (true, none) ∧ r2.1 = none ∧ r3.1 = none) := by
  intro p r1 r2 r3 final
  have l1 : Logs [.cloneRepo] (State.init fs) r1.2 := cloneRepo_logs w p _
  have l2 : Logs [.replacePackageName] r1.2 r2.2 := replacePackageName_logs w p _
  have l3 : Logs [.modTidy] r2.2 r3.2 := modTidy_logs w p _
  have l12 := l1.trans l2
  have l123 := l12.trans l3
  have n0 : successLine p ∉ (State.init fs).stdout := by simp [State.init]
  have hrun := run_cons w a rest (State.init fs)
  have e1 : r1.1 ≠ (true, none) → run w (a :: rest) (State.init fs) = .returned r1.2 := by
    intro h
    rw [hrun, if_pos h]
  have e2 : r1.1 = (true, none) → r2.1 ≠ none →
      run w (a :: rest) (State.init fs) = .returned r2.2 := by
    intro h1 h2
    rw [hrun, if_neg (not_not.mpr h1), if_pos h2]
  have e3 : r1.1 = (true, none) → r2.1 = none → r3.1 ≠ none →
      run w (a :: rest) (State.init fs) = .returned r3.2 := by
    intro h1 h2 h3
    rw [hrun, if_neg (not_not.mpr h1), if_neg (not_not.mpr h2), if_pos h3]
  refine ⟨e1, e2, e3, ?_, ?_, ?_⟩
  · intro hm
    by_contra h1
    have hf : final = r1.2 := by show (run w (a :: rest) (State.init fs)).state = _; rw [e1 h1]; rfl
    rw [hf, l1.1] at hm
    simp [State.init] at hm
  · intro hm
    by_cases h1 : r1.1 = (true, none)
    · refine ⟨h1, ?_⟩
      by_contra h2
      have hf : final = r2.2 := by
        show (run w (a :: rest) (State.init fs)).state = _; rw [e2 h1 h2]; rfl
      rw [hf, l12.1] at hm
      simp [State.init] at hm
    · have hf : final = r1.2 := by
        show (run w (a :: rest) (State.init fs)).state = _; rw [e1 h1]; rfl
      rw [hf, l1.1] at hm
      simp [State.init] at hm
  · intro hm
    by_cases h1 : r1.1 = (true, none)
    · by_cases h2 : r2.1 = none
      · refine ⟨h1, h2, ?_⟩
        by_contra h3
        have hf : final = r3.2 := by
          show (run w (a :: rest) (State.init fs)).state = _; rw [e3 h1 h2 h3]; rfl
        rw [hf, l123.1] at hm
        rcases hm with hm | hm
        · simp [State.init] at hm
        · exact l123.no_success p n0 hm
      · have hf : final = r2.2 := by
          show (run w (a :: rest) (State.init fs)).state = _; rw [e2 h1 h2]; rfl
        rw [hf, l12.1] at hm
        rcases hm with hm | hm
        · simp [State.init] at hm
        · exact absurd hm (l12.no_success p n0)
    · have hf : final = r1.2 := by
        show (run w (a :: rest) (State.init fs)).state = _; rw [e1 h1]; rfl
      rw [hf, l1.1] at hm
      rcases hm with hm | hm
      · simp [State.init] at hm
      · exact absurd hm (l1.no_success p n0)

/-- Claim C1, as the code behaves: on an empty argument list `run` panics at
`args[0]`, before the test of `len(args)`; it prints nothing and returns
nothing. -/
theorem run_no_args_panics (w : World) (s : State) :
    run w [] s =
      .panicked "runtime error: index out of range [0] with length 0".toList s := rfl

/-- Claim C2, as the code behaves: for `example.com/foo/bar` the folder name
is `bar`, but `cloneRepo` tests `example.com/foo/bar` for existence (with
`bar` present it asks nothing) and clones into `example.com/foo/bar`. -/
theorem cloneRepo_clones_into_ProjectName (w : World) :
    (NewProject "example.com/foo/bar".toList).FolderName = "bar".toList ∧
    Stat [mkDir "bar".toList]
      (NewProject "example.com/foo/bar".toList).FolderName ≠ none ∧
    (cloneRepo w (NewProject "example.com/foo/bar".toList)
      (State.init [mkDir "bar".toList])).2.cmds =
      [⟨"git".toList, ["clone".toList, repoURL, "example.com/foo/bar".toList], []⟩] := by
  refine ⟨by decide, by decide, ?_⟩
  have hs : Stat (enter .cloneRepo
      (State.init [mkDir "bar".toList])).fs
      (NewProject "example.com/foo/bar".toList).ProjectName = none := by decide
  simp only [cloneRepo, hs, cloneRepoGit, CombinedOutput, Printf]
  generalize w.exec _ _ = r
  obtain ⟨fs, err⟩ := r
  cases err <;> rfl

/-- When the folder `cloneRepo` tests (`ProjectName`) exists and the answer to
the prompt is no, `cloneRepo` returns `(false, nil)` with the file system
unchanged and no command started, and `run` returns in the state in which it
was called, but for the record that `cloneRepo` was entered. -/
theorem cloneRepo_declined (w : World) (a : GoString) (rest : List GoString) (s : State)
    (hex : (Stat s.fs (NewProject a).ProjectName).isSome = true)
    (hno : w.AskOne (confirmMessage (NewProject a)) = .ok false) :
    (cloneRepo w (NewProject a) s).1 = (false, none) ∧
    (cloneRepo w (NewProject a) s).2.fs = s.fs ∧
    (cloneRepo w (NewProject a) s).2.cmds = s.cmds ∧
    run w (a :: rest) s = .returned (enter .cloneRepo s) := by
  have h1 : cloneRepo w (NewProject a) s = ((false, none), enter .cloneRepo s) := by
    unfold cloneRepo
    cases hs : Stat s.fs (NewProject a).ProjectName with
    | none => simp [hs] at hex
    | some e => simp [enter, hs, hno]
  refine ⟨by rw [h1], by rw [h1]; rfl, by rw [h1]; rfl, ?_⟩
  simp [run, h1]

/-- Claim C8, as the code behaves: the destination folder `bar` holds an
earlier project and the answer to every prompt is no, yet `run` for
`example.com/foo/bar` asks nothing (the folder `cloneRepo` tests is
`example.com/foo/bar`), runs `git clone` and the later stages, rewrites
`bar/main.go`, removes `bar/.git` and prints the success message. -/
theorem run_overwrites_without_asking :
    (NewProject "example.com/foo/bar".toList).FolderName = "bar".toList ∧
    Stat earlierProject (NewProject "example.com/foo/bar".toList).FolderName =
      some (mkDir "bar".toList) ∧
    cloneWorld.AskOne (confirmMessage (NewProject "example.com/foo/bar".toList)) =
      .ok false ∧
    (cloneRepo cloneWorld (NewProject "example.com/foo/bar".toList)
      (State.init earlierProject)).1 = (true, none) ∧
    (run cloneWorld ["example.com/foo/bar".toList] (State.init earlierProject)).state.cmds =
      [⟨"git".toList, ["clone".toList, repoURL, "example.com/foo/bar".toList], []⟩,
       ⟨"go".toList, ["mod".toList, "edit".toList, "-module".toList,
         "example.com/foo/bar".toList], "bar".toList⟩,
       ⟨"go".toList, ["mod".toList, "tidy".toList], "bar".toList⟩] ∧
    (run cloneWorld ["example.com/foo/bar".toList] (State.init earlierProject)).state.fs =
      [mkDir "bar".toList,
       mkFile "bar/go.mod".toList "module base\n".toList,
       mkFile "bar/main.go".toList "import example.com/foo/bar/pkg".toList] ++
        freshCheckout ∧
    successLine (NewProject "example.com/foo/bar".toList) ∈
      (run cloneWorld ["example.com/foo/bar".toList]
        (State.init earlierProject)).state.stdout :=
  ⟨by decide, by decide, rfl, by decide, by decide, by decide, by decide⟩

/-- Claim C10 on a run that reaches `rmGit`: all three stages succeeded. -/
theorem run_stops_at_first_failure_witness :
    Stage.rmGit ∈ (run lockedGitWorld ["bar".toList] (State.init [])).state.calls ∧
    (cloneRepo lockedGitWorld (NewProject "bar".toList) (State.init [])).1 = (true, none) ∧
    (replacePackageName lockedGitWorld (NewProject "bar".toList)
      (cloneRepo lockedGitWorld (NewProject "bar".toList) (State.init [])).2).1 = none ∧
    (modTidy lockedGitWorld (NewProject "bar".toList)
      (replacePackageName lockedGitWorld (NewProject "bar".toList)
        (cloneRepo lockedGitWorld (NewProject "bar".toList) (State.init [])).2).2).1 = none :=
  ⟨by decide,
    (run_stops_at_first_failure lockedGitWorld "bar".toList [] []).2.2.2.2.2
      (Or.inl (by decide))⟩

/-! ### Removing the version-control directory -/

theorem splitElems_ne_nil (s : GoString) : splitElems s ≠ [] := by
  cases s with
  | nil => simp [splitElems]
  | cons c cs =>
    unfold splitElems
    split
    · simp
    · split <;> simp

theorem splitElems_append (f g : GoString) :
    splitElems (f ++ Separator :: g) = splitElems f ++ splitElems g := by
  induction f with
  | nil => simp [splitElems, IsPathSeparator]
  | cons c f ih =>
    rw [List.cons_append, splitElems.eq_2 c (f ++ Separator :: g), splitElems.eq_2 c f, ih]
    split
    · simp
    · cases hf : splitElems f with
      | nil => exact absurd hf (splitElems_ne_nil f)
      | cons e es => simp

theorem cleanElems_last (rooted : Bool) (xs out : List GoString) :
    ∃ ys, cleanElems rooted (xs ++ [".git".toList]) out = ys ++ [".git".toList] := by
  induction xs generalizing out with
  | nil => exact ⟨out.reverse, by simp [cleanElems]⟩
  | cons e es ih =>
    rw [List.cons_append]
    unfold cleanElems
    split
    · exact ih _
    · split
      · split
        · split
          · exact ih _
          · exact ih _
        · split
          · exact ih _
          · exact ih _
      · exact ih _

theorem Join_git (f : GoString) :
    ∃ z, Join [f, ".git".toList] = z ++ ".git".toList := by
  have hg : splitElems ".git".toList = [".git".toList] := by decide
  have key : ∀ (pre : GoString) (ys : List GoString),
      ∃ z, pre ++ [Separator].intercalate (ys ++ [".git".toList]) = z ++ ".git".toList := by
    intro pre ys
    rw [intercalate_concat]
    split
    · exact ⟨pre, rfl⟩
    · exact ⟨pre ++ [Separator].intercalate ys ++ [Separator], by simp⟩
  by_cases hf : f = []
  · subst hf
    exact ⟨[], by decide⟩
  · have hj : Join [f, ".git".toList] = Clean (f ++ Separator :: ".git".toList) := by
      simp [Join, List.dropWhile, hf, List.intercalate, List.intersperse]
    rw [hj]
    unfold Clean
    have hne : f ++ Separator :: ".git".toList ≠ [] := by simp
    simp only [hne, if_false, splitElems_append, hg]
    obtain ⟨ys, hys⟩ := cleanElems_last
      (decide ((f ++ Separator :: ".git".toList).head? = some Separator)) (splitElems f) []
    rw [hys]
    obtain ⟨z, hz⟩ := key (if (f ++ Separator :: ".git".toList).head? = some Separator
      then [Separator] else []) ys
    rw [hz]
    have hz2 : z ++ ".git".toList ≠ [] := by
      intro h
      have := congrArg List.length h
      simp at this
    simp only [hz2, if_false]
    exact ⟨z, rfl⟩

/-- The path `FolderName/.git` is neither empty nor ends in a dot, so
`os.RemoveAll` does not reject it. -/
theorem Join_git_valid (f : GoString) :
    Join [f, ".git".toList] ≠ [] ∧ endsWithDot (Join [f, ".git".toList]) = false := by
  obtain ⟨z, hz⟩ := Join_git f
  rw [hz]
  refine ⟨fun h => by simpa using congrArg List.length h, ?_⟩
  unfold endsWithDot
  have : (z ++ ".git".toList).reverse = 't' :: 'i' :: ('g' :: '.' :: z.reverse) := by
    rw [List.reverse_append]; rfl
  rw [this]
  rfl

/-- What `os.RemoveAll` leaves at or below `path` has at or below it an entry
that cannot be removed. -/
theorem RemoveAll_left (fs : FS) (path : GoString) (hp : path ≠ [])
    (hdot : endsWithDot path = false) (e : Entry) (he : e ∈ (RemoveAll fs path).1)
    (hu : isUnder path e.path = true) :
    ∃ d ∈ (RemoveAll fs path).1, isUnder e.path d.path = true ∧ d.removable = false := by
  simp only [RemoveAll, hp, if_false, hdot, Bool.false_eq_true] at he ⊢
  rw [List.mem_filter] at he
  obtain ⟨hmem, hkeep⟩ := he
  simp only [hu, Bool.not_true, Bool.false_or] at hkeep
  unfold blocked at hkeep
  rw [List.any_eq_true] at hkeep
  obtain ⟨d, hd, hdp⟩ := hkeep
  simp only [Bool.and_eq_true, Bool.not_eq_true'] at hdp
  refine ⟨d, ?_, hdp.1, hdp.2⟩
  rw [List.mem_filter]
  refine ⟨hd, ?_⟩
  have : blocked fs d = true := by
    unfold blocked
    rw [List.any_eq_true]
    exact ⟨d, hd, by simp [isUnder_self, hdp.2]⟩
  simp [this]

/-- A run that prints the success message went through all the stages. -/
theorem run_success_state (w : World) (a : GoString) (rest : List GoString) (fs : FS)
    (h : successLine (NewProject a) ∈ (run w (a :: rest) (State.init fs)).state.stdout) :
    (run w (a :: rest) (State.init fs)).state =
      printSuccess (NewProject a) (rmGit (NewProject a)
        (modTidy w (NewProject a) (replacePackageName w (NewProject a)
          (cloneRepo w (NewProject a) (State.init fs)).2).2).2) := by
  have l1 := cloneRepo_logs w (NewProject a) (State.init fs)
  have l2 := replacePackageName_logs w (NewProject a)
    (cloneRepo w (NewProject a) (State.init fs)).2
  have l3 := modTidy_logs w (NewProject a) (replacePackageName w (NewProject a)
    (cloneRepo w (NewProject a) (State.init fs)).2).2
  have n0 : successLine (NewProject a) ∉ (State.init fs).stdout := by simp [State.init]
  rw [run_cons] at h ⊢
  split at h
  · exact absurd h (l1.no_success _ n0)
  · split at h
    · exact absurd h ((l1.trans l2).no_success _ n0)
    · split at h
      · exact absurd h (((l1.trans l2).trans l3).no_success _ n0)
      · next h1 h2 h3 => rw [if_neg h1, if_neg h2, if_neg h3]; rfl

/-- Claim C9, amended.  After a run that prints the success message, whatever
is left at or below `FolderName/.git` is something whose removal failed: each
such entry has at or below it an entry that could not be removed.  In
particular nothing is left when every removal succeeds. -/
theorem run_success_git_left (w : World) (a : GoString) (rest : List GoString) (fs : FS)
    (h : successLine (NewProject a) ∈ (run w (a :: rest) (State.init fs)).state.stdout) :
    ∀ e ∈ (run w (a :: rest) (State.init fs)).state.fs,
      isUnder (Join [(NewProject a).FolderName, ".git".toList]) e.path = true →
      ∃ d ∈ (run w (a :: rest) (State.init fs)).state.fs,
        isUnder e.path d.path = true ∧ d.removable = false := by
  rw [run_success_state w a rest fs h]
  intro e he hu
  obtain ⟨hne, hdot⟩ := Join_git_valid (NewProject a).FolderName
  exact RemoveAll_left _ _ hne hdot e he hu

/-- Claim C9, amended, on a run that prints the success message. -/
theorem run_success_git_left_witness :
    successLine (NewProject "bar".toList) ∈
      (run lockedGitWorld ["bar".toList] (State.init [])).state.stdout ∧
    ∀ e ∈ (run lockedGitWorld ["bar".toList] (State.init [])).state.fs,
      isUnder (Join [(NewProject "bar".toList).FolderName, ".git".toList]) e.path = true →
      ∃ d ∈ (run lockedGitWorld ["bar".toList] (State.init [])).state.fs,
        isUnder e.path d.path = true ∧ d.removable = false :=
  ⟨by decide, run_success_git_left lockedGitWorld "bar".toList [] [] (by decide)⟩

/-- Claim C9 as stated fails: when `.git` cannot be removed, `rmGit` drops the
error of `os.RemoveAll`, the success message is printed and the directory
`bar/.git` is still there. -/
theorem run_success_git_remains :
    successLine (NewProject "bar".toList) ∈
      (run lockedGitWorld ["bar".toList] (State.init [])).state.stdout ∧
    ∃ e ∈ (run lockedGitWorld ["bar".toList] (State.init [])).state.fs,
      e.path = Join [(NewProject "bar".toList).FolderName, ".git".toList] ∧
      e.isDir = true := by
  refine ⟨by decide, { mkDir "bar/.git".toList with removable := false }, by decide, by decide,
    rfl⟩

end Cmd
